import Mathlib

/-!
Verification of the GreenPlate weekly-menu parser (`parse_menu.py`,
`find_latest_pdf.py`) against its specification.

Strings are modelled as `List Char`.  Python's locale-independent
`str.upper` is modelled character-wise for the alphabet occurring in the
source (ASCII plus the Turkish letters used by the day labels), and
`str.strip` strips the whitespace characters relevant to this program
(space, tab, newline, carriage return, vertical tab, form feed and the
non-breaking space U+00A0).
-/

namespace GreenPlate

abbrev Str := List Char

/-- The non-breaking space character ` ` handled by `_norm`. -/
def nbspC : Char := ' '

/-- Whitespace as stripped by Python's `str.strip()` (restricted to the
characters this program can produce). -/
def isPyWS (c : Char) : Bool :=
  c == ' ' || c == '\t' || c == '\n' || c == '\r' || c == '\x0b' || c == '\x0c' || c == nbspC

/-- Characters matched by the regex class `[ \t]` in `_norm`. -/
def isSpTab (c : Char) : Bool := c == ' ' || c == '\t'

/-- Python `s.replace(a, b)` for single characters. -/
def replaceAll (a b : Char) (l : Str) : Str := l.map fun c => if c == a then b else c

/-- Python `s.strip()`. -/
def pyStrip (l : Str) : Str :=
  ((l.dropWhile isPyWS).reverse.dropWhile isPyWS).reverse

/-- State machine for `re.sub(r"[ \t]+", " ", s)`: `inRun` records whether the
previous input character belonged to the current `[ \t]` run. -/
def collapseWSAux (inRun : Bool) : Str → Str
  | [] => []
  | c :: rest =>
    if isSpTab c then
      if inRun then collapseWSAux true rest else ' ' :: collapseWSAux true rest
    else c :: collapseWSAux false rest

/-- `re.sub(r"[ \t]+", " ", s)`. -/
def collapseWS (l : Str) : Str := collapseWSAux false l

/-- State machine for `re.sub(r"\n{3,}", "\n\n", s)`: `n` counts the pending
run of newlines not yet emitted. -/
def collapseNLAux (n : Nat) : Str → Str
  | [] => List.replicate (min n 2) '\n'
  | c :: rest =>
    if c == '\n' then collapseNLAux (n + 1) rest
    else List.replicate (min n 2) '\n' ++ c :: collapseNLAux 0 rest

/-- `re.sub(r"\n{3,}", "\n\n", s)`. -/
def collapseNL (l : Str) : Str := collapseNLAux 0 l

/-- `_norm` from `parse_menu.py`: replace ` ` by a space, strip,
collapse `[ \t]+` runs to one space, turn `\r` into `\n`, collapse runs of
three or more newlines to two, and strip again. -/
def norm (s : Str) : Str :=
  pyStrip (collapseNL (replaceAll '\r' '\n' (collapseWS (pyStrip (replaceAll nbspC ' ' s)))))

/-- Python's `str.upper`, character-wise, for the alphabet used by the
source (ASCII letters and the Turkish letters of the day labels).
`'ı'` uppercases to ASCII `'I'` and `'i'` to ASCII `'I'`, as in Python. -/
def pyUpper (c : Char) : Char :=
  if 'a' ≤ c && c ≤ 'z' then Char.ofNat (c.toNat - 32)
  else if c == 'ç' then 'Ç'
  else if c == 'ğ' then 'Ğ'
  else if c == 'ı' then 'I'
  else if c == 'ö' then 'Ö'
  else if c == 'ş' then 'Ş'
  else if c == 'ü' then 'Ü'
  else c

/-- `s.upper()` on the modelled alphabet. -/
def upperStr (l : Str) : Str := l.map pyUpper

/-- `"\n".split`-style splitting: Python `s.split("\n")`. -/
def splitOnNL : Str → List Str
  | [] => [[]]
  | c :: rest =>
    if c == '\n' then [] :: splitOnNL rest
    else
      match splitOnNL rest with
      | [] => [[c]]
      | h :: t => (c :: h) :: t

/-- Python `" ".join(lines)`. -/
def joinSp : List Str → Str
  | [] => []
  | [x] => x
  | x :: xs => x ++ ' ' :: joinSp xs

/-- The bullet-stripped body computed inside `_cell_to_items`:
`cell.replace("•", " ").strip()` applied to the normalized cell. -/
def cellBody (cell : Str) : Str := pyStrip (replaceAll '•' ' ' (norm cell))

/-- The list `lines` of `_cell_to_items`:
`[ln.strip() for ln in cell.split("\n") if ln.strip()]`. -/
def cellLines (cell : Str) : List Str :=
  ((splitOnNL (cellBody cell)).map pyStrip).filter (fun l => decide (l ≠ []))

/-- `_cell_to_items` from `parse_menu.py`.  The two final branches of the
source (`"/" in lines[0]` and the default) both join the lines with single
spaces; the branch structure is kept as in the source. -/
def cellToItems (cell : Str) : List Str :=
  if norm cell = [] then []
  else if (cellLines cell).length ≤ 1 then [cellBody cell]
  else if '/' ∈ (cellLines cell).headD [] then [joinSp (cellLines cell)]
  else [joinSp (cellLines cell)]

/-- `DAY_MAP` from `parse_menu.py`, in source order. -/
def DAY_MAP : List (Str × Str) :=
  [("PAZARTESİ".toList, "Monday".toList),
   ("PAZARTESI".toList, "Monday".toList),
   ("SALI".toList, "Tuesday".toList),
   ("ÇARŞAMBA".toList, "Wednesday".toList),
   ("CARSAMBA".toList, "Wednesday".toList),
   ("PERŞEMBE".toList, "Thursday".toList),
   ("PERSEMBE".toList, "Thursday".toList),
   ("CUMA".toList, "Friday".toList)]

/-- The keys of `DAY_MAP`, i.e. what `for d in DAY_MAP` iterates over. -/
def DAY_KEYS : List Str := DAY_MAP.map Prod.fst

/-- `DAYS_EN` from `parse_menu.py`. -/
def DAYS_EN : List Str :=
  ["Monday".toList, "Tuesday".toList, "Wednesday".toList,
   "Thursday".toList, "Friday".toList]

/-- A table as returned by pdfplumber: rows of cell strings (a `None` cell is
modelled as the empty string, which `_norm` treats identically). -/
abbrev Table := List (List Str)

/-- `max((len(r) for r in table if r), default=0)` from `_score_table`. -/
def maxCols (t : Table) : Nat :=
  ((t.filter (fun r => decide (r ≠ []))).map List.length).foldr max 0

/-- The day-label hits of one row in `_score_table`: the number of `DAY_MAP`
keys `d` with `d in [_norm(c).upper() for c in r if c]`. -/
def rowHits (r : List Str) : Nat :=
  let rr := (r.filter (fun c => decide (c ≠ []))).map (fun c => upperStr (norm c))
  DAY_KEYS.countP (fun d => decide (d ∈ rr))

/-- Total day-label hits over the first 6 rows, as summed by `_score_table`
(each hit contributes 5 to the score). -/
def hitScore (t : Table) : Nat := ((t.take 6).map rowHits).sum

/-- `_score_table` from `parse_menu.py`. -/
def scoreTable (t : Table) : Int :=
  if t = [] then -10
  else (if 5 ≤ maxCols t then (10 : Int) else 0) + 5 * (hitScore t : Int)
        + ((min t.length 30 : Nat) : Int)

/-- The day-label hits of a header-candidate row in `extract_menu_from_pdf`:
`sum(1 for k in DAY_MAP if k in [_norm(c).upper() for c in row])`
(no skipping of empty cells here, unlike `_score_table`). -/
def rowHitsHdr (row : List Str) : Nat :=
  let r := row.map (fun c => upperStr (norm c))
  DAY_KEYS.countP (fun d => decide (d ∈ r))

/-- The header search loop `for i, row in enumerate(best_table[:10])`:
`fuel` is the number of rows still allowed (initially 10), `k` the index of
the current row. -/
def findHdrAux : Table → Nat → Nat → Option Nat
  | _, 0, _ => none
  | [], _, _ => none
  | r :: rest, fuel + 1, k =>
    if 3 ≤ rowHitsHdr r then some k else findHdrAux rest fuel (k + 1)

/-- The chosen header row index: the first of the first 10 rows with at
least 3 day-label hits, else 0. -/
def headerRowIdx (t : Table) : Nat := (findHdrAux t 10 0).getD 0

/-- `DAY_MAP[cell]` as an optional lookup (keys are unique, so the first
match is the dict entry). -/
def dayFor (k : Str) : Option Str :=
  (DAY_MAP.find? (fun p => decide (p.1 = k))).map Prod.snd

/-- Python dict assignment `m[k] = v`: replace the value if the key is
present (keeping key order), else append the pair. -/
def dictInsert (m : List (Str × Nat)) (k : Str) (v : Nat) : List (Str × Nat) :=
  if (m.find? (fun p => decide (p.1 = k))).isSome then
    m.map (fun p => if p.1 = k then (p.1, v) else p)
  else m ++ [(k, v)]

/-- Python dict lookup `m.get(k)`. -/
def dictGet (m : List (Str × Nat)) (k : Str) : Option Nat :=
  (m.find? (fun p => decide (p.1 = k))).map Prod.snd

/-- The loop building `col_idx_for_day` from the header row. -/
def buildColIdx (hdr : List Str) : List (Str × Nat) :=
  hdr.enum.foldl
    (fun m jc =>
      match dayFor (upperStr (norm jc.2)) with
      | some day => dictInsert m day jc.1
      | none => m) []

/-- The positional fallback `{DAYS_EN[k]: k for k in range(5)}`. -/
def posMap : List (Str × Nat) := DAYS_EN.enum.map (fun p => (p.2, p.1))

/-- `col_idx_for_day` after the all-or-nothing fallback check
`if len(col_idx_for_day) < 5`. -/
def colIdxFinal (hdr : List Str) : List (Str × Nat) :=
  if (buildColIdx hdr).length < 5 then posMap else buildColIdx hdr

/-- The initial `days` dict `{d: [] for d in DAYS_EN}`. -/
def days0 : List (Str × List Str) := DAYS_EN.map (fun d => (d, ([] : List Str)))

/-- `if dish not in days[day_en]: days[day_en].append(dish)`. -/
def appendIfNew (days : List (Str × List Str)) (day dish : Str) :
    List (Str × List Str) :=
  days.map (fun p =>
    if p.1 = day then (p.1, if dish ∈ p.2 then p.2 else p.2 ++ [dish]) else p)

/-- The non-dish label filter of the assembler: skip a dish whose upper-cased
form starts with one of the four known prefixes. -/
def startsW (s pre : Str) : Bool := decide (s.take pre.length = pre)

/-- `up.startswith("ÖĞRENCİ") or ... or up.startswith("NOT:")`. -/
def dishBlocked (up : Str) : Bool :=
  startsW up ("ÖĞRENCİ".toList) || startsW up ("PERSONEL".toList) ||
  startsW up ("ASÇIBAŞI".toList) || startsW up ("NOT:".toList)

/-- The inner dish loop `for dish in _cell_to_items(row_cells[j])`. -/
def addDishes (days : List (Str × List Str)) (day : Str) (cell : Str) :
    List (Str × List Str) :=
  (cellToItems cell).foldl
    (fun ds item =>
      let dish := norm item
      if dish = [] then ds
      else if dishBlocked (upperStr dish) then ds
      else appendIfNew ds day dish) days

/-- One content row of the assembler: skip spacer rows (at most one
non-empty cell), pad to 5 cells, and add each day's cell. -/
def processRow (cmap : List (Str × Nat)) (days : List (Str × List Str))
    (row : List Str) : List (Str × List Str) :=
  if decide (row ≠ []) &&
      decide (1 < (row.filter (fun c => decide (norm c ≠ []))).length) then
    let cells := row ++ List.replicate (5 - row.length) []
    DAYS_EN.foldl
      (fun ds day =>
        match dictGet cmap day with
        | none => ds
        | some j => if j < cells.length then addDishes ds day (cells.getD j []) else ds)
      days
  else days

/-- Keep only entries whose normalized upper-cased form is not a `DAY_MAP`
key (the final safety pass of the assembler). -/
def dropDayTokens (days : List (Str × List Str)) : List (Str × List Str) :=
  days.map (fun p =>
    (p.1, p.2.filter (fun x => decide (upperStr (norm x) ∉ DAY_KEYS))))

/-- The whole assembly stage of `extract_menu_from_pdf` for a selected
(non-empty) table. -/
def assembleDays (t : Table) : List (Str × List Str) :=
  let hidx := headerRowIdx t
  let hdr := t.getD hidx []
  let cmap := colIdxFinal hdr
  dropDayTokens ((t.drop (hidx + 1)).foldl (processRow cmap) days0)

/-- `l.take n` if it consists of exactly `n` digits, with the rest. -/
def grabD (n : Nat) (l : Str) : Option (Str × Str) :=
  if (l.take n).length = n && (l.take n).all (fun c => '0' ≤ c && c ≤ '9')
  then some (l.take n, l.drop n) else none

/-- Consume one expected literal character. -/
def eatC (c : Char) : Str → Option Str
  | [] => none
  | x :: rest => if x == c then some rest else none

/-- Greedy `\d{1,2}\.`: two digits then a dot, else one digit then a dot. -/
def matchD12Dot (l : Str) : Option Str :=
  (do let p ← grabD 2 l; eatC '.' p.2) <|> (do let p ← grabD 1 l; eatC '.' p.2)

/-- Match the date-range regex
`\d{1,2}\.\d{1,2}\.\d{4}\s*/\s*\d{1,2}\.\d{1,2}\.\d{4}` at the start of
`l`, returning the rest of the input. -/
def matchDateAt (l : Str) : Option Str := do
  let r1 ← matchD12Dot l
  let r2 ← matchD12Dot r1
  let p3 ← grabD 4 r2
  let r4 := p3.2.dropWhile isPyWS
  let r5 ← eatC '/' r4
  let r6 := r5.dropWhile isPyWS
  let r7 ← matchD12Dot r6
  let r8 ← matchD12Dot r7
  let p9 ← grabD 4 r8
  some p9.2

/-- `re.search` scan for the date-range regex: first (leftmost) matching
position, returning the matched substring. -/
def searchDateAux : Str → Option Str
  | [] => none
  | c :: rest =>
    match matchDateAt (c :: rest) with
    | some r => some ((c :: rest).take ((c :: rest).length - r.length))
    | none => searchDateAux rest

/-- The date-range extraction of `extract_menu_from_pdf`:
first match of the regex in the page text, with spaces removed. -/
def findDateRange (text : Str) : Option Str :=
  (searchDateAux text).map (fun m => m.filter (fun c => decide (c ≠ ' ')))

/-- One pdfplumber page, as far as `extract_menu_from_pdf` observes it:
its extracted text, the result of `page.extract_tables` for each entry of
`settings_variants` (in order; `none` models a raised exception, which the
source swallows into `[]`), and the result of the final generic
`page.extract_table()` fallback (`none` models `None` or an exception). -/
structure Page where
  text : Str
  tablesPerConfig : List (Option (List Table))
  fallbackTable : Option Table

/-- A pdf document: its pages.  Only page 0 is ever read. -/
structure PdfDoc where
  pages : List Page

/-- All candidate tables, in configuration order:
`tables = page.extract_tables(...) or []` per settings, concatenated. -/
def candidatesOf (p : Page) : List Table :=
  (p.tablesPerConfig.map (fun r => r.getD [])).flatten

/-- The best-table scan: running maximum with strict improvement
(`if sc > best_score`), starting from `best_score = -10`, `best_table = None`. -/
def selectBest (cands : List Table) : Option Table × Int :=
  cands.foldl
    (fun acc t => if scoreTable t > acc.2 then (some t, scoreTable t) else acc)
    (none, -10)

/-- Python falsiness of `best_table` (`None` or the empty list). -/
def isFalsy : Option Table → Bool
  | none => true
  | some t => decide (t = [])

/-- `best_table` after the scan over all configurations. -/
def bestTableSel (p : Page) : Option Table := (selectBest (candidatesOf p)).1

/-- `best_table` after the `if not best_table:` generic fallback
(`t = page.extract_table(); if t: best_table = t`). -/
def bestTableFinal (p : Page) : Option Table :=
  if isFalsy (bestTableSel p) then
    match p.fallbackTable with
    | some t => if t ≠ [] then some t else bestTableSel p
    | none => bestTableSel p
  else bestTableSel p

/-- `extract_menu_from_pdf`: returns the `days` mapping (an ordered
key/value list, as a Python dict preserves insertion order) and the
optional date range. -/
def extract_menu_from_pdf (doc : PdfDoc) : List (Str × List Str) × Option Str :=
  match doc.pages with
  | [] => (days0, none)
  | page :: _ =>
    match bestTableFinal page with
    | none => (days0, findDateRange (norm page.text))
    | some t =>
      if t = [] then (days0, findDateRange (norm page.text))
      else (assembleDays t, findDateRange (norm page.text))

/-- Greedy `\d{1,2}_`: two digits then an underscore, else one digit then
an underscore, returning the digit group and the rest. -/
def matchD12U (l : Str) : Option (Str × Str) :=
  (do let p ← grabD 2 l; let r ← eatC '_' p.2; some (p.1, r)) <|>
  (do let p ← grabD 1 l; let r ← eatC '_' p.2; some (p.1, r))

/-- Greedy `\d{2,4}` followed by a literal `sep`. -/
def grabYSep (sep : Char) (l : Str) : Option (Str × Str) :=
  (do let p ← grabD 4 l; let r ← eatC sep p.2; some (p.1, r)) <|>
  (do let p ← grabD 3 l; let r ← eatC sep p.2; some (p.1, r)) <|>
  (do let p ← grabD 2 l; let r ← eatC sep p.2; some (p.1, r))

/-- Greedy `\d{2,4}` at the end of the pattern (no follow constraint). -/
def grabY (l : Str) : Option (Str × Str) := grabD 4 l <|> grabD 3 l <|> grabD 2 l

/-- Match `(\d{1,2})_(\d{1,2})_(\d{2,4})-(\d{1,2})_(\d{1,2})_(\d{2,4})`
at the start of `l`, returning the six captured digit groups. -/
def matchUrlAt (l : Str) : Option (Str × Str × Str × Str × Str × Str) := do
  let d1 ← matchD12U l
  let m1 ← matchD12U d1.2
  let y1 ← grabYSep '-' m1.2
  let d2 ← matchD12U y1.2
  let m2 ← matchD12U d2.2
  let y2 ← grabY m2.2
  some (d1.1, m1.1, y1.1, d2.1, m2.1, y2.1)

/-- `re.search` scan for the filename date-range pattern. -/
def searchUrlAux : Str → Option (Str × Str × Str × Str × Str × Str)
  | [] => none
  | c :: rest =>
    match matchUrlAt (c :: rest) with
    | some g => some g
    | none => searchUrlAux rest

/-- Python `int()` on a digit string. -/
def digitsVal (g : Str) : Nat := g.foldl (fun a c => 10 * a + (c.toNat - 48)) 0

/-- The 6-tuple sort key `score(u)` of `pick_best` in `find_latest_pdf.py`:
`(y2, m2, d2, y1, m1, d1)` with 2-digit years shifted into the 2000s
(`y2` via `if y2 < 100`, `y1` via `if y1 > 100 else 2000+y1`), and
`(0,0,0,0,0,0)` when the pattern does not occur. -/
def urlKey (u : Str) : Nat × Nat × Nat × Nat × Nat × Nat :=
  match searchUrlAux u with
  | none => (0, 0, 0, 0, 0, 0)
  | some (d1, m1, y1, d2, m2, y2) =>
    let Y2 := if digitsVal y2 < 100 then digitsVal y2 + 2000 else digitsVal y2
    let Y1 := if 100 < digitsVal y1 then digitsVal y1 else 2000 + digitsVal y1
    (Y2, digitsVal m2, digitsVal d2, Y1, digitsVal m1, digitsVal d1)

/-- One lexicographic comparison step, as used by Python tuple `<=`. -/
def lexStep {α : Type} (le : α → α → Bool) (a b : Nat × α) : Bool :=
  decide (a.1 < b.1) || (decide (a.1 = b.1) && le a.2 b.2)

/-- Boolean `≤` on naturals. -/
def natLeB (a b : Nat) : Bool := decide (a ≤ b)

/-- Python `<=` on the 6-tuple keys. -/
def key6Le : Nat × Nat × Nat × Nat × Nat × Nat →
    Nat × Nat × Nat × Nat × Nat × Nat → Bool :=
  lexStep (lexStep (lexStep (lexStep (lexStep natLeB))))

/-- Stable insertion into a list sorted by `urlKey` (a new element goes
after equal keys, matching the stability of Python's `sorted`). -/
def insB (x : Str) : List Str → List Str
  | [] => [x]
  | y :: ys => if key6Le (urlKey y) (urlKey x) then y :: insB x ys else x :: y :: ys

/-- `sorted(·, key=score)` as a stable insertion sort. -/
def sortUrls (l : List Str) : List Str := l.foldl (fun acc u => insB u acc) []

/-- `set(urls)` modelled as first-occurrence deduplication (the concrete
iteration order of a CPython set is arbitrary; `pick_best`'s specified
behaviour does not depend on it). -/
def dedupL (l : List Str) : List Str :=
  l.foldl (fun acc u => if u ∈ acc then acc else acc ++ [u]) []

/-- `pick_best` from `find_latest_pdf.py`:
`sorted(set(urls), key=score)[-1]`. -/
def pick_best (urls : List Str) : Str := (sortUrls (dedupL urls)).getLastD []

/-- The head of `l` is not whitespace (vacuously true for `[]`). -/
def noWSHead (l : Str) : Bool := !isPyWS (l.headD 'a')

/-- The last character of `l` is not whitespace (vacuously true for `[]`). -/
def noWSLast (l : Str) : Bool := !isPyWS (l.reverse.headD 'a')

/-- `l` carries no leading or trailing whitespace. -/
def strippedB (l : Str) : Bool := noWSHead l && noWSLast l

/-- `l` contains two adjacent `[ \t]` characters. -/
def hasAdjSp : Str → Bool
  | a :: b :: rest => (isSpTab a && isSpTab b) || hasAdjSp (b :: rest)
  | _ => false

/-- A header row with all five Turkish day labels. -/
def hdrRow5 : List Str :=
  ["PAZARTESİ".toList, "SALI".toList, "ÇARŞAMBA".toList,
   "PERŞEMBE".toList, "CUMA".toList]

/-- A table whose Monday column carries the raw dishes
`["Soup", "soup ", "Soup"]` (each row has a second non-empty cell so that
no row is skipped as a spacer). -/
def exTableC1 : Table :=
  [hdrRow5,
   ["Soup".toList, "x".toList, [], [], []],
   ["soup ".toList, "y".toList, [], [], []],
   ["Soup".toList, "z".toList, [], [], []]]

/-- A document whose only page yields `exTableC1` from the first
table-extraction configuration. -/
def docC1 : PdfDoc := ⟨[⟨[], [some [exTableC1]], none⟩]⟩

/-- 30 one-column rows: no day labels, fewer than 5 columns. -/
def exT30 : Table := List.replicate 30 ["x".toList]

/-- One row of 5 columns with exactly 3 day-label hits. -/
def exU1 : Table :=
  [["PAZARTESİ".toList, "SALI".toList, "ÇARŞAMBA".toList, [], []]]

/-- A two-row, one-column table (for the C2 witness). -/
def exTc2 : Table := [["x".toList], ["y".toList]]

/-- A six-row table with 5 columns and 5 day-label hits (C2 witness). -/
def exUc2 : Table :=
  [hdrRow5, ["a".toList], ["a".toList], ["a".toList], ["a".toList], ["a".toList]]

/-- A header row with only four recognizable weekday cells. -/
def hdr4 : List Str :=
  ["PAZARTESİ".toList, "SALI".toList, "ÇARŞAMBA".toList,
   "PERŞEMBE".toList, "X".toList]

/-- A table whose header is at index 1 (row 0 has no day labels). -/
def exTableC6 : Table :=
  [["MENU".toList, [], [], [], []],
   hdrRow5,
   ["Çorba".toList, "Pilav".toList, [], [], []]]

/-- A table with one dish per weekday (C10 witness). -/
def exTableC10 : Table :=
  [hdrRow5,
   ["Çorba".toList, "Pilav".toList, "Makarna".toList, "Kebap".toList,
    "Balık".toList]]

/-- A document whose only page yields `exTableC10`. -/
def docC10 : PdfDoc := ⟨[⟨[], [some [exTableC10]], none⟩]⟩

/-- A page from which no configuration and no generic fallback pass yields
a usable table (one configuration raises, one returns no tables, and the
generic fallback returns an empty, falsy, table). -/
def pageNoTable : Page := ⟨"no tables here".toList, [none, some [], none], some []⟩

/-- A document with only `pageNoTable`. -/
def docNoTable : PdfDoc := ⟨[pageNoTable]⟩

/-- A document with zero pages. -/
def docNoPages : PdfDoc := ⟨[]⟩

/-- The invariant maintained by the assembler on the `days` mapping: the
keys are exactly `DAYS_EN` in order, and every stored dish is a non-empty
fixpoint of `norm`, with no exact duplicate inside one weekday's list. -/
def DaysInv (days : List (Str × List Str)) : Prop :=
  days.map Prod.fst = DAYS_EN ∧
    ∀ p ∈ days, p.2.Nodup ∧ ∀ x ∈ p.2, x ≠ [] ∧ norm x = x

theorem mem_replaceAll {c a b : Char} {l : Str} (h : c ∈ replaceAll a b l) :
    c ∈ l ∨ c = b := by
  rcases List.mem_map.1 h with ⟨x, hx, hfx⟩
  by_cases hxa : (x == a) = true
  · right; simp only [hxa, if_true] at hfx; exact hfx.symm
  · left; simp only [hxa, if_false] at hfx; exact hfx ▸ hx

theorem replaceAll_eq_self {a b : Char} {l : Str} (h : a ∉ l) :
    replaceAll a b l = l := by
  induction l with
  | nil => rfl
  | cons x xs ih =>
    simp only [List.mem_cons, not_or] at h
    have hxa : (x == a) = false := by
      simp only [beq_eq_false_iff_ne]
      exact fun hh => h.1 hh.symm
    have hstep : replaceAll a b (x :: xs) =
        (if (x == a) = true then b else x) :: replaceAll a b xs := rfl
    rw [hstep, hxa]
    simp only [Bool.false_eq_true, if_false]
    rw [ih h.2]

theorem mem_dropWhile {c : Char} {p : Char → Bool} {l : Str}
    (h : c ∈ l.dropWhile p) : c ∈ l :=
  List.Sublist.mem h (List.dropWhile_sublist p)

theorem mem_pyStrip {c : Char} {l : Str} (h : c ∈ pyStrip l) : c ∈ l := by
  unfold pyStrip at h
  rw [List.mem_reverse] at h
  have h2 := mem_dropWhile h
  rw [List.mem_reverse] at h2
  exact mem_dropWhile h2

theorem mem_collapseWSAux {c : Char} {l : Str} {b : Bool}
    (h : c ∈ collapseWSAux b l) : c = ' ' ∨ (c ∈ l ∧ isSpTab c = false) := by
  induction l generalizing b with
  | nil => simp [collapseWSAux] at h
  | cons x xs ih =>
    by_cases hx : isSpTab x
    · simp only [collapseWSAux, hx, if_true] at h
      cases b with
      | true =>
        rcases ih h with h1 | h2
        · exact Or.inl h1
        · exact Or.inr ⟨List.mem_cons_of_mem _ h2.1, h2.2⟩
      | false =>
        rcases List.mem_cons.1 h with h1 | h1
        · exact Or.inl h1
        · rcases ih h1 with h2 | h3
          · exact Or.inl h2
          · exact Or.inr ⟨List.mem_cons_of_mem _ h3.1, h3.2⟩
    · simp only [collapseWSAux, hx, if_false, Bool.false_eq_true] at h
      rcases List.mem_cons.1 h with h1 | h1
      · subst h1
        exact Or.inr ⟨List.mem_cons_self _ _, by simpa using hx⟩
      · rcases ih h1 with h2 | h3
        · exact Or.inl h2
        · exact Or.inr ⟨List.mem_cons_of_mem _ h3.1, h3.2⟩

theorem mem_collapseNLAux {c : Char} {l : Str} {n : Nat}
    (h : c ∈ collapseNLAux n l) : c = '\n' ∨ c ∈ l := by
  induction l generalizing n with
  | nil =>
    simp only [collapseNLAux] at h
    exact Or.inl (List.eq_of_mem_replicate h)
  | cons x xs ih =>
    by_cases hx : x == '\n'
    · simp only [collapseNLAux, hx, if_true] at h
      rcases ih h with h1 | h1
      · exact Or.inl h1
      · exact Or.inr (List.mem_cons_of_mem _ h1)
    · simp only [collapseNLAux, hx, Bool.false_eq_true, if_false] at h
      rcases List.mem_append.1 h with h1 | h1
      · exact Or.inl (List.eq_of_mem_replicate h1)
      · rcases List.mem_cons.1 h1 with h2 | h2
        · exact Or.inr (h2 ▸ List.mem_cons_self _ _)
        · rcases ih h2 with h3 | h3
          · exact Or.inl h3
          · exact Or.inr (List.mem_cons_of_mem _ h3)

theorem headD_append_single {xs : Str} {c d : Char} :
    (xs ++ [c]).headD d = xs.headD c := by cases xs <;> rfl

theorem headD_irrel {l : Str} (h : l ≠ []) (d₁ d₂ : Char) :
    l.headD d₁ = l.headD d₂ := by
  cases l with
  | nil => exact absurd rfl h
  | cons x xs => rfl

theorem noWSHead_dropWhile (l : Str) :
    noWSHead (l.dropWhile isPyWS) = true := by
  induction l with
  | nil => rfl
  | cons x xs ih =>
    by_cases hx : isPyWS x = true
    · rw [List.dropWhile_cons, if_pos hx]; exact ih
    · rw [List.dropWhile_cons, if_neg hx]
      simp only [noWSHead, List.headD]
      simpa using hx

theorem noWSHead_rstrip {r : Str} (h : noWSHead r.reverse = true) :
    noWSHead (r.dropWhile isPyWS).reverse = true := by
  induction r with
  | nil => exact h
  | cons c rs ih =>
    by_cases hc : isPyWS c = true
    · rw [List.dropWhile_cons, if_pos hc]
      apply ih
      rw [List.reverse_cons] at h
      unfold noWSHead at h ⊢
      rw [@headD_append_single rs.reverse c 'a'] at h
      by_cases hrs : rs.reverse = []
      · rw [hrs] at h
        simp only [List.headD] at h
        rw [hc] at h
        exact absurd h (by simp)
      · rw [headD_irrel hrs 'a' c]
        exact h
    · rw [List.dropWhile_cons, if_neg hc]
      exact h

theorem pyStrip_noWSHead (l : Str) : noWSHead (pyStrip l) = true := by
  unfold pyStrip
  apply noWSHead_rstrip
  rw [List.reverse_reverse]
  exact noWSHead_dropWhile l

theorem pyStrip_noWSLast (l : Str) : noWSLast (pyStrip l) = true := by
  show noWSHead (pyStrip l).reverse = true
  unfold pyStrip
  rw [List.reverse_reverse]
  exact noWSHead_dropWhile _

theorem stripped_pyStrip (l : Str) : strippedB (pyStrip l) = true := by
  simp [strippedB, pyStrip_noWSHead l, pyStrip_noWSLast l]

theorem dropWhile_eq_self_of_noWSHead {l : Str} (h : noWSHead l = true) :
    l.dropWhile isPyWS = l := by
  cases l with
  | nil => rfl
  | cons x xs =>
    have hx : isPyWS x = false := by simpa [noWSHead] using h
    rw [List.dropWhile_cons, hx]
    simp

theorem pyStrip_eq_self {l : Str} (h : strippedB l = true) : pyStrip l = l := by
  have h' := h
  simp only [strippedB, Bool.and_eq_true] at h'
  obtain ⟨h1, h2⟩ := h'
  unfold pyStrip
  rw [dropWhile_eq_self_of_noWSHead h1, dropWhile_eq_self_of_noWSHead h2,
    List.reverse_reverse]

theorem pyStrip_idem (l : Str) : pyStrip (pyStrip l) = pyStrip l :=
  pyStrip_eq_self (stripped_pyStrip l)

theorem pyStrip_eq_nil_iff {l : Str} :
    pyStrip l = [] ↔ ∀ c ∈ l, isPyWS c = true := by
  constructor
  · intro h c hc
    unfold pyStrip at h
    rw [List.reverse_eq_nil_iff, List.dropWhile_eq_nil_iff] at h
    rw [← List.takeWhile_append_dropWhile isPyWS l] at hc
    rcases List.mem_append.1 hc with h1 | h1
    · exact List.mem_takeWhile_imp h1
    · exact h c (List.mem_reverse.2 h1)
  · intro h
    have h1 : l.dropWhile isPyWS = [] := List.dropWhile_eq_nil_iff.2 h
    unfold pyStrip
    rw [h1]
    rfl

theorem collapseNLAux_of_no_nl {l : Str} (h : '\n' ∉ l) :
    collapseNLAux 0 l = l := by
  induction l with
  | nil => rfl
  | cons x xs ih =>
    simp only [List.mem_cons, not_or] at h
    have hx : (x == '\n') = false := by
      simp only [beq_eq_false_iff_ne]
      exact fun hh => h.1 hh.symm
    simp only [collapseNLAux, hx, Bool.false_eq_true, if_false]
    simp [ih h.2]

theorem self_not_mem_replaceAll {a b : Char} (hab : b ≠ a) (l : Str) :
    a ∉ replaceAll a b l := by
  intro h
  rcases List.mem_map.1 h with ⟨x, hx, hfx⟩
  by_cases hxa : (x == a) = true
  · rw [if_pos hxa] at hfx; exact hab hfx
  · rw [if_neg hxa] at hfx
    exact hxa (by rw [hfx]; exact beq_self_eq_true a)

theorem mem_replaceAll_target {a b : Char} {l : Str} (h : b ∈ replaceAll a b l) :
    a ∈ l ∨ b ∈ l := by
  rcases List.mem_map.1 h with ⟨x, hx, hfx⟩
  by_cases hxa : (x == a) = true
  · rw [beq_iff_eq] at hxa; exact Or.inl (hxa ▸ hx)
  · simp only [hxa, if_false] at hfx; exact Or.inr (hfx ▸ hx)

theorem hasAdjSp_cons_eq (c : Char) (l : Str) :
    hasAdjSp (c :: l) = ((isSpTab c && isSpTab (l.headD 'a')) || hasAdjSp l) := by
  cases l with
  | nil => simp [hasAdjSp, show isSpTab 'a' = false from rfl]
  | cons b r => rfl

theorem hasAdjSp_tail {c : Char} {l : Str} (h : hasAdjSp (c :: l) = false) :
    hasAdjSp l = false := by
  rw [hasAdjSp_cons_eq] at h
  exact (Bool.or_eq_false_iff.1 h).2

theorem hasAdjSp_append (xs ys : Str) :
    hasAdjSp (xs ++ ys) =
      (hasAdjSp xs || (isSpTab (xs.getLastD 'a') && isSpTab (ys.headD 'a'))
        || hasAdjSp ys) := by
  induction xs with
  | nil => simp [hasAdjSp, show isSpTab 'a' = false from rfl]
  | cons x xs ih =>
    cases xs with
    | nil =>
      rw [List.cons_append, List.nil_append, hasAdjSp_cons_eq]
      simp [hasAdjSp, List.getLastD]
    | cons b r =>
      have hL : hasAdjSp (x :: b :: (r ++ ys)) =
          ((isSpTab x && isSpTab b) || hasAdjSp (b :: (r ++ ys))) := rfl
      have hR : hasAdjSp (x :: b :: r) =
          ((isSpTab x && isSpTab b) || hasAdjSp (b :: r)) := rfl
      rw [List.cons_append, List.cons_append, hL, ← List.cons_append, ih, hR]
      simp only [List.getLastD_cons]
      simp [Bool.or_assoc]

theorem getLastD_reverse (l : Str) (d : Char) :
    l.reverse.getLastD d = l.headD d := by
  cases l with
  | nil => rfl
  | cons c cs => rw [List.reverse_cons, List.getLastD_concat]; rfl

theorem hasAdjSp_reverse (l : Str) : hasAdjSp l.reverse = hasAdjSp l := by
  induction l with
  | nil => rfl
  | cons x xs ih =>
    rw [List.reverse_cons, hasAdjSp_append, ih, getLastD_reverse,
      hasAdjSp_cons_eq x xs]
    have h1 : ([x] : Str).headD 'a' = x := rfl
    have h2 : hasAdjSp [x] = false := rfl
    rw [h1, h2, Bool.or_false, Bool.and_comm, Bool.or_comm]

theorem hasAdjSp_dropWhile {p : Char → Bool} {l : Str}
    (h : hasAdjSp l = false) : hasAdjSp (l.dropWhile p) = false := by
  induction l with
  | nil => exact h
  | cons x xs ih =>
    rw [List.dropWhile_cons]
    by_cases hx : p x = true
    · rw [if_pos hx]; exact ih (hasAdjSp_tail h)
    · rw [if_neg hx]; exact h

theorem hasAdjSp_pyStrip {l : Str} (h : hasAdjSp l = false) :
    hasAdjSp (pyStrip l) = false := by
  unfold pyStrip
  rw [hasAdjSp_reverse]
  apply hasAdjSp_dropWhile
  rw [hasAdjSp_reverse]
  exact hasAdjSp_dropWhile h

theorem collapseWSAux_facts (l : Str) :
    hasAdjSp (collapseWSAux false l) = false ∧
      hasAdjSp (collapseWSAux true l) = false ∧
      isSpTab ((collapseWSAux true l).headD 'a') = false := by
  induction l with
  | nil => exact ⟨rfl, rfl, by decide⟩
  | cons x xs ih =>
    obtain ⟨ihf, iht, ihh⟩ := ih
    by_cases hx : isSpTab x = true
    · refine ⟨?_, ?_, ?_⟩
      · simp only [collapseWSAux, hx, if_true, Bool.false_eq_true, if_false]
        rw [hasAdjSp_cons_eq, iht, ihh]
        simp
      · simp only [collapseWSAux, hx, if_true]
        exact iht
      · simp only [collapseWSAux, hx, if_true]
        exact ihh
    · have hxf : isSpTab x = false := by simpa using hx
      refine ⟨?_, ?_, ?_⟩
      · simp only [collapseWSAux, hxf, Bool.false_eq_true, if_false]
        rw [hasAdjSp_cons_eq, ihf]
        simp [hxf]
      · simp only [collapseWSAux, hxf, Bool.false_eq_true, if_false]
        rw [hasAdjSp_cons_eq, ihf]
        simp [hxf]
      · simp only [collapseWSAux, hxf, Bool.false_eq_true, if_false]
        exact hxf

theorem hasAdjSp_collapseWS (l : Str) : hasAdjSp (collapseWS l) = false :=
  (collapseWSAux_facts l).1

theorem no_tab_collapseWS (l : Str) : '\t' ∉ collapseWS l := by
  intro h
  rcases mem_collapseWSAux h with h1 | h2
  · exact absurd h1 (by decide)
  · exact absurd h2.2 (by decide)

theorem collapseWSAux_eq_self {l : Str} (ht : '\t' ∉ l)
    (ha : hasAdjSp l = false) :
    collapseWSAux false l = l ∧
      (isSpTab (l.headD 'a') = false → collapseWSAux true l = l) := by
  induction l with
  | nil => exact ⟨rfl, fun _ => rfl⟩
  | cons x xs ih =>
    have ht' : '\t' ∉ xs := fun hh => ht (List.mem_cons_of_mem _ hh)
    obtain ⟨ihf, iht⟩ := ih ht' (hasAdjSp_tail ha)
    by_cases hx : isSpTab x = true
    · have hxsp : x = ' ' := by
        have hor : x = ' ' ∨ x = '\t' := by simpa [isSpTab] using hx
        rcases hor with h1 | h1
        · exact h1
        · rw [h1] at ht
          exact absurd (List.mem_cons_self _ _) ht
      constructor
      · simp only [collapseWSAux, hx, if_true, Bool.false_eq_true, if_false]
        rw [hxsp]
        congr 1
        apply iht
        rw [hasAdjSp_cons_eq] at ha
        rcases Bool.or_eq_false_iff.1 ha with ⟨hp, _⟩
        rcases Bool.and_eq_false_iff.1 hp with hq | hq
        · exact absurd hq (by rw [hx]; simp)
        · exact hq
      · intro hcon
        have : isSpTab x = false := hcon
        rw [this] at hx
        exact absurd hx (by simp)
    · have hxf : isSpTab x = false := by simpa using hx
      constructor
      · simp only [collapseWSAux, hxf, Bool.false_eq_true, if_false]
        rw [ihf]
      · intro _
        simp only [collapseWSAux, hxf, Bool.false_eq_true, if_false]
        rw [ihf]

theorem collapseWS_eq_self {l : Str} (ht : '\t' ∉ l)
    (ha : hasAdjSp l = false) : collapseWS l = l :=
  (collapseWSAux_eq_self ht ha).1

theorem collapseNLAux_headD_of_pos {n : Nat} (l : Str) (h : 1 ≤ n) :
    (collapseNLAux n l).headD 'a' = '\n' := by
  induction l generalizing n with
  | nil =>
    show (List.replicate (min n 2) '\n').headD 'a' = '\n'
    have h2 : 1 ≤ min n 2 := le_min h (by norm_num)
    cases hm : min n 2 with
    | zero => omega
    | succ k => rw [List.replicate_succ]; rfl
  | cons x xs ih =>
    by_cases hx : (x == '\n') = true
    · simp only [collapseNLAux, hx, if_true]
      exact ih (Nat.le_succ_of_le h)
    · simp only [collapseNLAux, hx, Bool.false_eq_true, if_false]
      have h2 : 1 ≤ min n 2 := le_min h (by norm_num)
      cases hm : min n 2 with
      | zero => omega
      | succ k => rw [List.replicate_succ]; rfl

theorem hasAdjSp_replicate_nl (k : Nat) :
    hasAdjSp (List.replicate k '\n') = false := by
  induction k with
  | zero => rfl
  | succ n ih =>
    rw [List.replicate_succ, hasAdjSp_cons_eq, ih]
    simp [show isSpTab '\n' = false from rfl]

theorem getLastD_replicate_nl (k : Nat) :
    isSpTab ((List.replicate k '\n').getLastD 'a') = false := by
  cases k with
  | zero => decide
  | succ n =>
    rw [List.replicate_succ', List.getLastD_concat]
    decide

theorem hasAdjSp_collapseNLAux {l : Str} (ha : hasAdjSp l = false) (n : Nat) :
    hasAdjSp (collapseNLAux n l) = false := by
  induction l generalizing n with
  | nil =>
    show hasAdjSp (List.replicate (min n 2) '\n') = false
    exact hasAdjSp_replicate_nl _
  | cons x xs ih =>
    by_cases hx : (x == '\n') = true
    · simp only [collapseNLAux, hx, if_true]
      exact ih (hasAdjSp_tail ha) (n + 1)
    · simp only [collapseNLAux, hx, Bool.false_eq_true, if_false]
      rw [hasAdjSp_append, hasAdjSp_replicate_nl, getLastD_replicate_nl,
        hasAdjSp_cons_eq, ih (hasAdjSp_tail ha) 0]
      simp only [Bool.false_and, Bool.false_or, Bool.or_false]
      by_cases hsx : isSpTab x = true
      · rw [hsx, Bool.true_and]
        rw [hasAdjSp_cons_eq] at ha
        rcases Bool.or_eq_false_iff.1 ha with ⟨hp, _⟩
        rcases Bool.and_eq_false_iff.1 hp with hq | hq
        · rw [hsx] at hq; exact absurd hq (by simp)
        · cases xs with
          | nil => decide
          | cons y ys =>
            by_cases hy : (y == '\n') = true
            · simp only [collapseNLAux, hy, if_true]
              rw [collapseNLAux_headD_of_pos ys (le_refl 1)]
              decide
            · simp only [collapseNLAux, hy, Bool.false_eq_true, if_false]
              exact hq
      · have : isSpTab x = false := by simpa using hsx
        rw [this, Bool.false_and]

theorem isSpTab_replCR (c : Char) :
    isSpTab (if (c == '\r') = true then '\n' else c) = isSpTab c := by
  by_cases hc : (c == '\r') = true
  · rw [if_pos hc, beq_iff_eq.1 hc]; decide
  · rw [if_neg hc]

theorem replaceAll_cr_cons (x : Char) (xs : Str) :
    replaceAll '\r' '\n' (x :: xs) =
      (if (x == '\r') = true then '\n' else x) :: replaceAll '\r' '\n' xs := rfl

theorem headD_replaceAll_cr (l : Str) :
    isSpTab ((replaceAll '\r' '\n' l).headD 'a') = isSpTab (l.headD 'a') := by
  cases l with
  | nil => rfl
  | cons y ys => rw [replaceAll_cr_cons]; exact isSpTab_replCR y

theorem hasAdjSp_replaceAll_cr (l : Str) :
    hasAdjSp (replaceAll '\r' '\n' l) = hasAdjSp l := by
  induction l with
  | nil => rfl
  | cons x xs ih =>
    rw [replaceAll_cr_cons, hasAdjSp_cons_eq, ih, headD_replaceAll_cr,
      isSpTab_replCR, hasAdjSp_cons_eq]

theorem norm_no_tab (s : Str) : '\t' ∉ norm s := by
  intro h
  unfold norm at h
  have h1 := mem_pyStrip h
  rcases mem_collapseNLAux h1 with h2 | h2
  · exact absurd h2 (by decide)
  · rcases mem_replaceAll h2 with h3 | h3
    · exact no_tab_collapseWS _ h3
    · exact absurd h3 (by decide)

theorem norm_no_cr (s : Str) : '\r' ∉ norm s := by
  intro h
  unfold norm at h
  have h1 := mem_pyStrip h
  rcases mem_collapseNLAux h1 with h2 | h2
  · exact absurd h2 (by decide)
  · exact self_not_mem_replaceAll (by decide) _ h2

theorem norm_no_nbsp (s : Str) : nbspC ∉ norm s := by
  intro h
  unfold norm at h
  have h1 := mem_pyStrip h
  rcases mem_collapseNLAux h1 with h2 | h2
  · exact absurd h2 (by decide)
  · rcases mem_replaceAll h2 with h3 | h3
    · rcases mem_collapseWSAux h3 with h4 | h4
      · exact absurd h4 (by decide)
      · exact self_not_mem_replaceAll (by decide) _ (mem_pyStrip h4.1)
    · exact absurd h3 (by decide)

theorem norm_adj (s : Str) : hasAdjSp (norm s) = false := by
  unfold norm
  apply hasAdjSp_pyStrip
  apply hasAdjSp_collapseNLAux
  rw [hasAdjSp_replaceAll_cr]
  exact hasAdjSp_collapseWS _

theorem norm_stripped (s : Str) : strippedB (norm s) = true := stripped_pyStrip _

theorem norm_mem {c : Char} {s : Str} (h : c ∈ norm s) :
    c ∈ s ∨ c = ' ' ∨ c = '\n' := by
  unfold norm at h
  have h1 := mem_pyStrip h
  rcases mem_collapseNLAux h1 with h2 | h2
  · exact Or.inr (Or.inr h2)
  · rcases mem_replaceAll h2 with h3 | h3
    · rcases mem_collapseWSAux h3 with h4 | h4
      · exact Or.inr (Or.inl h4)
      · rcases mem_replaceAll (mem_pyStrip h4.1) with h5 | h5
        · exact Or.inl h5
        · exact Or.inr (Or.inl h5)
    · exact Or.inr (Or.inr h3)

theorem norm_no_nl {s : Str} (h1 : '\n' ∉ s) (h2 : '\r' ∉ s) :
    '\n' ∉ norm s := by
  intro h
  unfold norm at h
  have hmem := mem_pyStrip h
  have hX : '\n' ∉ replaceAll '\r' '\n' (collapseWS (pyStrip (replaceAll nbspC ' ' s))) := by
    intro hcx
    rcases mem_replaceAll_target hcx with hcr | hnl
    · rcases mem_collapseWSAux hcr with h4 | h4
      · exact absurd h4 (by decide)
      · rcases mem_replaceAll (mem_pyStrip h4.1) with h5 | h5
        · exact h2 h5
        · exact absurd h5 (by decide)
    · rcases mem_collapseWSAux hnl with h4 | h4
      · exact absurd h4 (by decide)
      · rcases mem_replaceAll (mem_pyStrip h4.1) with h5 | h5
        · exact h1 h5
        · exact absurd h5 (by decide)
  rw [show collapseNL (replaceAll '\r' '\n' (collapseWS (pyStrip (replaceAll nbspC ' ' s))))
        = collapseNLAux 0 (replaceAll '\r' '\n' (collapseWS (pyStrip (replaceAll nbspC ' ' s)))) from rfl] at hmem
  rw [collapseNLAux_of_no_nl hX] at hmem
  exact hX hmem

theorem collapseNL_of_no_nl {l : Str} (h : '\n' ∉ l) : collapseNL l = l :=
  collapseNLAux_of_no_nl h

theorem norm_fix {t : Str} (h1 : nbspC ∉ t) (h2 : strippedB t = true)
    (h3 : '\t' ∉ t) (h4 : hasAdjSp t = false) (h5 : '\r' ∉ t)
    (h6 : '\n' ∉ t) : norm t = t := by
  unfold norm
  rw [replaceAll_eq_self h1, pyStrip_eq_self h2]
  rw [show collapseWS t = t from collapseWS_eq_self h3 h4]
  rw [replaceAll_eq_self h5]
  rw [collapseNL_of_no_nl h6]
  exact pyStrip_eq_self h2

theorem norm_norm {s : Str} (ha : '\n' ∉ s) (hb : '\r' ∉ s) :
    norm (norm s) = norm s :=
  norm_fix (norm_no_nbsp s) (norm_stripped s) (norm_no_tab s) (norm_adj s)
    (norm_no_cr s) (norm_no_nl ha hb)

theorem splitOnNL_ne_nil (l : Str) : splitOnNL l ≠ [] := by
  cases l with
  | nil => simp [splitOnNL]
  | cons c rest =>
    by_cases hc : (c == '\n') = true
    · simp [splitOnNL, hc]
    · simp only [splitOnNL, hc, Bool.false_eq_true, if_false]
      cases splitOnNL rest with
      | nil => simp
      | cons h t => simp

theorem splitOnNL_cons_nl {c : Char} {rest : Str} (hc : (c == '\n') = true) :
    splitOnNL (c :: rest) = [] :: splitOnNL rest := by
  simp [splitOnNL, hc]

theorem splitOnNL_cons_other {c : Char} {rest : Str} (hc : (c == '\n') = false)
    {h : Str} {t : List Str} (hr : splitOnNL rest = h :: t) :
    splitOnNL (c :: rest) = (c :: h) :: t := by
  simp [splitOnNL, hc, hr]

theorem splitOnNL_length (l : Str) :
    (splitOnNL l).length = l.count '\n' + 1 := by
  induction l with
  | nil => rfl
  | cons c rest ih =>
    by_cases hc : (c == '\n') = true
    · rw [splitOnNL_cons_nl hc, List.count_cons]
      simp [List.length_cons, ih, hc]
    · have hc' : (c == '\n') = false := by simpa using hc
      cases hr : splitOnNL rest with
      | nil => exact absurd hr (splitOnNL_ne_nil rest)
      | cons h t =>
        rw [splitOnNL_cons_other hc' hr, List.count_cons]
        rw [hr] at ih
        simp only [List.length_cons] at ih ⊢
        simp only [hc', Bool.false_eq_true, if_false]
        omega

theorem mem_splitOnNL {l : Str} :
    ∀ part ∈ splitOnNL l, ∀ c ∈ part, c ∈ l ∧ c ≠ '\n' := by
  induction l with
  | nil =>
    intro part hp c hc
    simp [splitOnNL] at hp
    subst hp
    simp at hc
  | cons x rest ih =>
    intro part hp c hc
    by_cases hx : (x == '\n') = true
    · rw [splitOnNL_cons_nl hx] at hp
      rcases List.mem_cons.1 hp with h1 | h1
      · subst h1; simp at hc
      · have h2 := ih part h1 c hc
        exact ⟨List.mem_cons_of_mem _ h2.1, h2.2⟩
    · have hx' : (x == '\n') = false := by simpa using hx
      cases hr : splitOnNL rest with
      | nil => exact absurd hr (splitOnNL_ne_nil rest)
      | cons h t =>
        rw [splitOnNL_cons_other hx' hr] at hp
        rcases List.mem_cons.1 hp with h1 | h1
        · subst h1
          rcases List.mem_cons.1 hc with h2 | h2
          · subst h2
            refine ⟨List.mem_cons_self _ _, fun hcn => ?_⟩
            rw [hcn] at hx'
            simp at hx'
          · have hh : h ∈ splitOnNL rest := by
              rw [hr]; exact List.mem_cons_self _ _
            have h3 := ih h hh c h2
            exact ⟨List.mem_cons_of_mem _ h3.1, h3.2⟩
        · have hh : part ∈ splitOnNL rest := by
            rw [hr]; exact List.mem_cons_of_mem _ h1
          have h3 := ih part hh c hc
          exact ⟨List.mem_cons_of_mem _ h3.1, h3.2⟩

theorem splitOnNL_no_nl {l : Str} (h : '\n' ∉ l) : splitOnNL l = [l] := by
  induction l with
  | nil => rfl
  | cons x rest ih =>
    have hx : (x == '\n') = false := by
      rw [beq_eq_false_iff_ne]
      exact fun hh => h (hh ▸ List.mem_cons_self _ _)
    have hrest : '\n' ∉ rest := fun hh => h (List.mem_cons_of_mem _ hh)
    rw [splitOnNL_cons_other hx (ih hrest)]

theorem hasAdjSp_splitOnNL {l : Str} (ha : hasAdjSp l = false) :
    ∀ part ∈ splitOnNL l, hasAdjSp part = false := by
  induction l with
  | nil =>
    intro part hp
    simp [splitOnNL] at hp
    subst hp
    rfl
  | cons x rest ih =>
    intro part hp
    by_cases hx : (x == '\n') = true
    · rw [splitOnNL_cons_nl hx] at hp
      rcases List.mem_cons.1 hp with h1 | h1
      · subst h1; rfl
      · exact ih (hasAdjSp_tail ha) part h1
    · have hx' : (x == '\n') = false := by simpa using hx
      cases hr : splitOnNL rest with
      | nil => exact absurd hr (splitOnNL_ne_nil rest)
      | cons h t =>
        rw [splitOnNL_cons_other hx' hr] at hp
        rcases List.mem_cons.1 hp with h1 | h1
        · subst h1
          have hh : h ∈ splitOnNL rest := by
            rw [hr]; exact List.mem_cons_self _ _
          have hAh : hasAdjSp h = false := ih (hasAdjSp_tail ha) h hh
          rw [hasAdjSp_cons_eq, hAh, Bool.or_false]
          by_cases hsx : isSpTab x = true
          · rw [hsx, Bool.true_and]
            cases rest with
            | nil =>
              rw [show splitOnNL ([] : Str) = [[]] from rfl] at hr
              injection hr with hA hB
              rw [← hA]
              decide
            | cons y ys =>
              by_cases hy : (y == '\n') = true
              · rw [splitOnNL_cons_nl hy] at hr
                injection hr with hA hB
                rw [← hA]
                decide
              · have hy' : (y == '\n') = false := by simpa using hy
                cases hr2 : splitOnNL ys with
                | nil => exact absurd hr2 (splitOnNL_ne_nil ys)
                | cons h2 t2 =>
                  rw [splitOnNL_cons_other hy' hr2] at hr
                  injection hr with hA hB
                  rw [← hA]
                  rw [hasAdjSp_cons_eq] at ha
                  rcases Bool.or_eq_false_iff.1 ha with ⟨hpair, _⟩
                  rcases Bool.and_eq_false_iff.1 hpair with hq | hq
                  · rw [hsx] at hq; exact absurd hq (by simp)
                  · exact hq
          · have hsxf : isSpTab x = false := by simpa using hsx
            rw [hsxf, Bool.false_and]
        · have hh : part ∈ splitOnNL rest := by
            rw [hr]; exact List.mem_cons_of_mem _ h1
          exact ih (hasAdjSp_tail ha) part hh

theorem headD_append_left {xs ys : Str} (h : xs ≠ []) (d : Char) :
    (xs ++ ys).headD d = xs.headD d := by
  cases xs with
  | nil => exact absurd rfl h
  | cons c cs => rfl

theorem noWSLast_cons {c : Char} {rest : Str} (h : rest ≠ []) :
    noWSLast (c :: rest) = noWSLast rest := by
  unfold noWSLast
  rw [List.reverse_cons,
    headD_append_left (by simpa [List.reverse_eq_nil_iff] using h) 'a']

theorem getLastD_mem {α : Type} :
    ∀ (t : List α) (d : α), t ≠ [] → t.getLastD d ∈ t := by
  intro t
  induction t with
  | nil => intro d h; exact absurd rfl h
  | cons a t2 ih =>
    intro d h
    cases t2 with
    | nil => simp [List.getLastD_cons]
    | cons b t3 =>
      rw [List.getLastD_cons]
      exact List.mem_cons_of_mem _ (ih a (by simp))

theorem getLastD_ne_nil_irrel {α : Type} {t : List α} (h : t ≠ [])
    (d₁ d₂ : α) : t.getLastD d₁ = t.getLastD d₂ := by
  cases t with
  | nil => exact absurd rfl h
  | cons a t2 => rw [List.getLastD_cons, List.getLastD_cons]

theorem pyStrip_ne_nil_of_mem {part : Str} {c : Char} (hc : c ∈ part)
    (hw : isPyWS c = false) : pyStrip part ≠ [] := by
  intro h
  rw [pyStrip_eq_nil_iff] at h
  rw [h c hc] at hw
  simp at hw

theorem exists_nonws_of_pyStrip_ne_nil {part : Str} (h : pyStrip part ≠ []) :
    ∃ c ∈ part, isPyWS c = false := by
  by_contra hcon
  push_neg at hcon
  apply h
  rw [pyStrip_eq_nil_iff]
  intro c hc
  cases hx : isPyWS c with
  | false => exact absurd hx (hcon c hc)
  | true => rfl

theorem splitOnNL_last_nonblank {l : Str} (hl : noWSLast l = true)
    (hne : l ≠ []) : pyStrip ((splitOnNL l).getLastD []) ≠ [] := by
  induction l with
  | nil => exact absurd rfl hne
  | cons c rest ih =>
    by_cases hres : rest = []
    · subst hres
      have hcw : isPyWS c = false := by simpa [noWSLast] using hl
      have hcn : (c == '\n') = false := by
        rw [beq_eq_false_iff_ne]
        intro hc
        rw [hc] at hcw
        simp [isPyWS] at hcw
      rw [splitOnNL_cons_other hcn (show splitOnNL ([] : Str) = [[]] from rfl)]
      rw [List.getLastD_cons]
      show pyStrip (c :: []) ≠ []
      exact pyStrip_ne_nil_of_mem (List.mem_cons_self _ _) hcw
    · have hlr : noWSLast rest = true := by rw [← noWSLast_cons hres]; exact hl
      by_cases hc : (c == '\n') = true
      · rw [splitOnNL_cons_nl hc, List.getLastD_cons]
        have := ih hlr hres
        rwa [getLastD_ne_nil_irrel (splitOnNL_ne_nil rest) [] ([] : Str)] at this
      · have hc' : (c == '\n') = false := by simpa using hc
        cases hr : splitOnNL rest with
        | nil => exact absurd hr (splitOnNL_ne_nil rest)
        | cons h t =>
          rw [splitOnNL_cons_other hc' hr]
          have ihr := ih hlr hres
          rw [hr] at ihr
          cases t with
          | nil =>
            rw [List.getLastD_cons] at ihr ⊢
            show pyStrip (c :: h) ≠ []
            rcases exists_nonws_of_pyStrip_ne_nil ihr with ⟨d, hd, hdw⟩
            exact pyStrip_ne_nil_of_mem (List.mem_cons_of_mem _ hd) hdw
          | cons t0 t1 =>
            rw [List.getLastD_cons] at ihr ⊢
            rwa [getLastD_ne_nil_irrel (show t0 :: t1 ≠ [] by simp) (c :: h) h]

theorem cellLines_ge2core {c2 : Str} (hh : noWSHead c2 = true)
    (hl : noWSLast c2 = true) (hn : '\n' ∈ c2) :
    2 ≤ (((splitOnNL c2).map pyStrip).filter (fun l => decide (l ≠ []))).length := by
  cases c2 with
  | nil => simp at hn
  | cons x rest =>
    have hxw : isPyWS x = false := by simpa [noWSHead] using hh
    have hxn : (x == '\n') = false := by
      rw [beq_eq_false_iff_ne]
      intro hx
      rw [hx] at hxw
      simp [isPyWS] at hxw
    have hnr : '\n' ∈ rest := by
      rcases List.mem_cons.1 hn with h1 | h1
      · rw [← h1] at hxn; simp at hxn
      · exact h1
    have hrne : rest ≠ [] := List.ne_nil_of_mem hnr
    cases hr : splitOnNL rest with
    | nil => exact absurd hr (splitOnNL_ne_nil rest)
    | cons h t =>
      have htne : t ≠ [] := by
        have hlen := splitOnNL_length rest
        rw [hr] at hlen
        have hcount : 0 < rest.count '\n' := List.count_pos_iff.2 hnr
        simp only [List.length_cons] at hlen
        intro ht0
        rw [ht0] at hlen
        simp at hlen
        omega
      rw [splitOnNL_cons_other hxn hr, List.map_cons]
      have hpx : pyStrip (x :: h) ≠ [] :=
        pyStrip_ne_nil_of_mem (List.mem_cons_self _ _) hxw
      rw [List.filter_cons_of_pos (by simpa using hpx), List.length_cons]
      have hlast : pyStrip ((splitOnNL (x :: rest)).getLastD []) ≠ [] :=
        splitOnNL_last_nonblank hl (by simp)
      rw [splitOnNL_cons_other hxn hr, List.getLastD_cons] at hlast
      have hmemL : t.getLastD (x :: h) ∈ t := getLastD_mem t _ htne
      have hmemF : pyStrip (t.getLastD (x :: h)) ∈
          (t.map pyStrip).filter (fun l => decide (l ≠ [])) := by
        rw [List.mem_filter]
        exact ⟨List.mem_map.2 ⟨_, hmemL, rfl⟩, by simpa using hlast⟩
      have := List.length_pos_of_mem hmemF
      omega

theorem bool_and_split {a b : Bool} (h : (a && b) = true) :
    a = true ∧ b = true := by
  rw [Bool.and_eq_true] at h
  exact h

theorem isSpTab_of_not_pyWS {c : Char} (h : isPyWS c = false) :
    isSpTab c = false := by
  unfold isPyWS at h
  rcases Bool.or_eq_false_iff.1 h with ⟨h1, _⟩
  rcases Bool.or_eq_false_iff.1 h1 with ⟨h2, _⟩
  rcases Bool.or_eq_false_iff.1 h2 with ⟨h3, _⟩
  rcases Bool.or_eq_false_iff.1 h3 with ⟨h4, _⟩
  rcases Bool.or_eq_false_iff.1 h4 with ⟨h5, _⟩
  exact h5

theorem getLastD_eq_reverse_headD (x : Str) (d : Char) :
    x.getLastD d = x.reverse.headD d := by
  have := getLastD_reverse x.reverse d
  rwa [List.reverse_reverse] at this

theorem isSpTab_getLastD_of_stripped {x : Str} (h : strippedB x = true) :
    isSpTab (x.getLastD 'a') = false := by
  have h2 : noWSLast x = true := (bool_and_split h).2
  rw [getLastD_eq_reverse_headD]
  apply isSpTab_of_not_pyWS
  simpa [noWSLast] using h2

theorem isSpTab_headD_of_stripped {x : Str} (h : strippedB x = true) :
    isSpTab (x.headD 'a') = false := by
  have h2 : noWSHead x = true := (bool_and_split h).1
  apply isSpTab_of_not_pyWS
  simpa [noWSHead] using h2

theorem noWSLast_append {a b : Str} (h : b ≠ []) :
    noWSLast (a ++ b) = noWSLast b := by
  unfold noWSLast
  rw [List.reverse_append,
    headD_append_left (by simpa [List.reverse_eq_nil_iff] using h) 'a']

theorem joinSp_ne_nil {x : Str} {tl : List Str} (hx : x ≠ []) :
    joinSp (x :: tl) ≠ [] := by
  cases tl with
  | nil => exact hx
  | cons y tl2 =>
    show x ++ ' ' :: joinSp (y :: tl2) ≠ []
    simp

theorem joinSp_headD {x : Str} {tl : List Str} (hx : x ≠ []) (d : Char) :
    (joinSp (x :: tl)).headD d = x.headD d := by
  cases tl with
  | nil => rfl
  | cons y tl2 => exact headD_append_left hx d

theorem mem_joinSp {c : Char} {ls : List Str} (h : c ∈ joinSp ls) :
    c = ' ' ∨ ∃ p ∈ ls, c ∈ p := by
  induction ls with
  | nil => simp [joinSp] at h
  | cons x xs ih =>
    cases xs with
    | nil => exact Or.inr ⟨x, List.mem_cons_self _ _, h⟩
    | cons y tl =>
      rw [show joinSp (x :: y :: tl) = x ++ ' ' :: joinSp (y :: tl) from rfl] at h
      rcases List.mem_append.1 h with h1 | h1
      · exact Or.inr ⟨x, List.mem_cons_self _ _, h1⟩
      · rcases List.mem_cons.1 h1 with h2 | h2
        · exact Or.inl h2
        · rcases ih h2 with h3 | ⟨p, hp, hcp⟩
          · exact Or.inl h3
          · exact Or.inr ⟨p, List.mem_cons_of_mem _ hp, hcp⟩

theorem joinSp_adj_stripped {ls : List Str}
    (hne : ∀ ln ∈ ls, ln ≠ [])
    (hst : ∀ ln ∈ ls, strippedB ln = true)
    (had : ∀ ln ∈ ls, hasAdjSp ln = false) :
    hasAdjSp (joinSp ls) = false ∧ strippedB (joinSp ls) = true := by
  induction ls with
  | nil => exact ⟨rfl, rfl⟩
  | cons x xs ih =>
    have hxne := hne x (List.mem_cons_self _ _)
    have hxst := hst x (List.mem_cons_self _ _)
    have hxad := had x (List.mem_cons_self _ _)
    cases xs with
    | nil => exact ⟨hxad, hxst⟩
    | cons y tl =>
      have hyne := hne y (List.mem_cons_of_mem _ (List.mem_cons_self _ _))
      have hyst := hst y (List.mem_cons_of_mem _ (List.mem_cons_self _ _))
      obtain ⟨ihadj, ihstr⟩ := ih
        (fun ln hln => hne ln (List.mem_cons_of_mem _ hln))
        (fun ln hln => hst ln (List.mem_cons_of_mem _ hln))
        (fun ln hln => had ln (List.mem_cons_of_mem _ hln))
      have hJ : joinSp (x :: y :: tl) = x ++ ' ' :: joinSp (y :: tl) := rfl
      constructor
      · rw [hJ, hasAdjSp_append, hxad, isSpTab_getLastD_of_stripped hxst]
        simp only [Bool.false_and, Bool.false_or]
        rw [hasAdjSp_cons_eq, ihadj, Bool.or_false, joinSp_headD hyne,
          isSpTab_headD_of_stripped hyst]
        simp
      · rw [hJ]
        unfold strippedB
        rw [show noWSHead (x ++ ' ' :: joinSp (y :: tl))
              = !isPyWS ((x ++ ' ' :: joinSp (y :: tl)).headD 'a') from rfl]
        rw [headD_append_left hxne, noWSLast_append (by simp),
          noWSLast_cons (joinSp_ne_nil hyne)]
        have hx1 : (!isPyWS (x.headD 'a')) = true := (bool_and_split hxst).1
        have hy1 : noWSLast (joinSp (y :: tl)) = true :=
          (bool_and_split ihstr).2
        rw [hx1, hy1]
        rfl

theorem cellBody_stripped (cell : Str) : strippedB (cellBody cell) = true :=
  stripped_pyStrip _

theorem mem_cellBody {c : Char} {cell : Str} (h : c ∈ cellBody cell) :
    c ∈ norm cell ∨ c = ' ' := by
  unfold cellBody at h
  rcases mem_replaceAll (mem_pyStrip h) with h1 | h1
  · exact Or.inl h1
  · exact Or.inr h1

theorem no_bullet_norm {cell : Str} (h : '•' ∉ cell) : '•' ∉ norm cell := by
  intro hb
  rcases norm_mem hb with h1 | h1 | h1
  · exact h h1
  · exact absurd h1 (by decide)
  · exact absurd h1 (by decide)

theorem cellBody_of_no_bullet {cell : Str} (h : '•' ∉ cell) :
    cellBody cell = norm cell := by
  unfold cellBody
  rw [replaceAll_eq_self (no_bullet_norm h), pyStrip_eq_self (norm_stripped cell)]

theorem cellLines_mem_struct {cell ln : Str} (h : ln ∈ cellLines cell) :
    ∃ part ∈ splitOnNL (cellBody cell), ln = pyStrip part ∧ ln ≠ [] := by
  unfold cellLines at h
  rcases List.mem_filter.1 h with ⟨hm, hp⟩
  rcases List.mem_map.1 hm with ⟨part, hpart, heq⟩
  exact ⟨part, hpart, heq.symm, by simpa using hp⟩

theorem mem_cellLines_char {cell ln : Str} {c : Char} (hln : ln ∈ cellLines cell)
    (hc : c ∈ ln) : c ∈ cellBody cell ∧ c ≠ '\n' := by
  rcases cellLines_mem_struct hln with ⟨part, hpart, heq, _⟩
  rw [heq] at hc
  exact mem_splitOnNL part hpart c (mem_pyStrip hc)

theorem cellLines_of_nil_norm {cell : Str} (h : norm cell = []) :
    cellLines cell = [] := by
  unfold cellLines cellBody
  rw [h]
  rfl

theorem cellBody_no_nl {cell : Str} (h1 : (cellLines cell).length ≤ 1) :
    '\n' ∉ cellBody cell := by
  intro hn
  have hstr := cellBody_stripped cell
  have h2 : 2 ≤ (cellLines cell).length :=
    cellLines_ge2core (bool_and_split hstr).1 (bool_and_split hstr).2 hn
  omega

theorem cellToItems_eq_nil_iff (cell : Str) :
    cellToItems cell = [] ↔ norm cell = [] := by
  constructor
  · intro h
    by_contra h0
    unfold cellToItems at h
    rw [if_neg h0] at h
    by_cases h1 : (cellLines cell).length ≤ 1
    · rw [if_pos h1] at h; simp at h
    · rw [if_neg h1] at h
      by_cases hs : '/' ∈ (cellLines cell).headD []
      · rw [if_pos hs] at h; simp at h
      · rw [if_neg hs] at h; simp at h
  · intro h
    unfold cellToItems
    rw [if_pos h]

theorem cellToItems_eq_join {cell : Str} (h2 : 2 ≤ (cellLines cell).length) :
    cellToItems cell = [joinSp (cellLines cell)] := by
  have h0 : norm cell ≠ [] := by
    intro h0
    rw [cellLines_of_nil_norm h0] at h2
    simp at h2
  unfold cellToItems
  rw [if_neg h0, if_neg (by omega)]
  by_cases hs : '/' ∈ (cellLines cell).headD []
  · rw [if_pos hs]
  · rw [if_neg hs]

theorem cellToItems_no_nl_cr {cell item : Str} (h : item ∈ cellToItems cell) :
    '\n' ∉ item ∧ '\r' ∉ item := by
  have hBodyNoCr : ∀ c ∈ cellBody cell, c ≠ '\r' := by
    intro c hc hcr
    rcases mem_cellBody hc with h1 | h1
    · rw [hcr] at h1; exact norm_no_cr cell h1
    · rw [hcr] at h1; exact absurd h1 (by decide)
  unfold cellToItems at h
  by_cases h0 : norm cell = []
  · rw [if_pos h0] at h; simp at h
  · rw [if_neg h0] at h
    by_cases h1 : (cellLines cell).length ≤ 1
    · rw [if_pos h1] at h
      have hi : item = cellBody cell := List.mem_singleton.1 h
      subst hi
      exact ⟨cellBody_no_nl h1, fun hcr => hBodyNoCr '\r' hcr rfl⟩
    · have hitem : item = joinSp (cellLines cell) := by
        rw [if_neg h1] at h
        split at h
        · exact List.mem_singleton.1 h
        · exact List.mem_singleton.1 h
      clear h
      rw [hitem]
      constructor
      · intro hn
        rcases mem_joinSp hn with h2 | ⟨p, hp, hcp⟩
        · exact absurd h2 (by decide)
        · exact (mem_cellLines_char hp hcp).2 rfl
      · intro hr
        rcases mem_joinSp hr with h2 | ⟨p, hp, hcp⟩
        · exact absurd h2 (by decide)
        · exact hBodyNoCr '\r' (mem_cellLines_char hp hcp).1 rfl

theorem cellLines_good {cell ln : Str} (hb : '•' ∉ cell)
    (h : ln ∈ cellLines cell) :
    ln ≠ [] ∧ strippedB ln = true ∧ hasAdjSp ln = false ∧
      (∀ c ∈ ln, c ≠ '\n' ∧ c ≠ '\t' ∧ c ≠ '\r' ∧ c ≠ nbspC ∧ c ≠ '•') := by
  rcases cellLines_mem_struct h with ⟨part, hpart, heq, hne⟩
  have hBody : cellBody cell = norm cell := cellBody_of_no_bullet hb
  have hAdjBody : hasAdjSp (cellBody cell) = false := by
    rw [hBody]; exact norm_adj cell
  refine ⟨hne, heq ▸ stripped_pyStrip part, ?_, ?_⟩
  · rw [heq]
    exact hasAdjSp_pyStrip (hasAdjSp_splitOnNL hAdjBody part hpart)
  · intro c hc
    have hcb := mem_cellLines_char h hc
    have hcn : c ∈ norm cell := hBody ▸ hcb.1
    refine ⟨hcb.2, ?_, ?_, ?_, ?_⟩
    · intro hx; rw [hx] at hcn; exact norm_no_tab cell hcn
    · intro hx; rw [hx] at hcn; exact norm_no_cr cell hcn
    · intro hx; rw [hx] at hcn; exact norm_no_nbsp cell hcn
    · intro hx; rw [hx] at hcn; exact no_bullet_norm hb hcn

theorem joinSp_lines_norm_fix {cell : Str} (hb : '•' ∉ cell) :
    norm (joinSp (cellLines cell)) = joinSp (cellLines cell) := by
  have hg : ∀ ln ∈ cellLines cell, ln ≠ [] ∧ strippedB ln = true ∧
      hasAdjSp ln = false ∧
      (∀ c ∈ ln, c ≠ '\n' ∧ c ≠ '\t' ∧ c ≠ '\r' ∧ c ≠ nbspC ∧ c ≠ '•') :=
    fun ln hln => cellLines_good hb hln
  obtain ⟨hadj, hstr⟩ := joinSp_adj_stripped
    (fun ln hln => (hg ln hln).1)
    (fun ln hln => (hg ln hln).2.1)
    (fun ln hln => (hg ln hln).2.2.1)
  have hchar : ∀ c ∈ joinSp (cellLines cell),
      c ≠ '\n' ∧ c ≠ '\t' ∧ c ≠ '\r' ∧ c ≠ nbspC := by
    intro c hc
    rcases mem_joinSp hc with h1 | ⟨p, hp, hcp⟩
    · rw [h1]
      refine ⟨by decide, by decide, by decide, by decide⟩
    · have := (hg p hp).2.2.2 c hcp
      exact ⟨this.1, this.2.1, this.2.2.1, this.2.2.2.1⟩
  exact norm_fix
    (fun hmem => (hchar _ hmem).2.2.2 rfl)
    hstr
    (fun hmem => (hchar _ hmem).2.1 rfl)
    hadj
    (fun hmem => (hchar _ hmem).2.2.1 rfl)
    (fun hmem => (hchar _ hmem).1 rfl)

theorem joinSp_lines_no_bullet {cell : Str} (hb : '•' ∉ cell) :
    '•' ∉ joinSp (cellLines cell) := by
  intro h
  rcases mem_joinSp h with h1 | ⟨p, hp, hcp⟩
  · exact absurd h1 (by decide)
  · exact ((cellLines_good hb hp).2.2.2 '•' hcp).2.2.2.2 rfl

theorem cellToItems_join_idem {cell : Str} (hb : '•' ∉ cell)
    (h2 : 2 ≤ (cellLines cell).length) :
    cellToItems (joinSp (cellLines cell)) = [joinSp (cellLines cell)] := by
  have hJfix : norm (joinSp (cellLines cell)) = joinSp (cellLines cell) :=
    joinSp_lines_norm_fix hb
  have hJne : joinSp (cellLines cell) ≠ [] := by
    cases hL : cellLines cell with
    | nil => rw [hL] at h2; simp at h2
    | cons x tl =>
      have hx : x ∈ cellLines cell := by
        rw [hL]; exact List.mem_cons_self _ _
      exact joinSp_ne_nil (cellLines_good hb hx).1
  have hJstr : strippedB (joinSp (cellLines cell)) = true := by
    have hg : ∀ ln ∈ cellLines cell, ln ≠ [] ∧ strippedB ln = true ∧
        hasAdjSp ln = false ∧
        (∀ c ∈ ln, c ≠ '\n' ∧ c ≠ '\t' ∧ c ≠ '\r' ∧ c ≠ nbspC ∧ c ≠ '•') :=
      fun ln hln => cellLines_good hb hln
    exact (joinSp_adj_stripped
      (fun ln hln => (hg ln hln).1)
      (fun ln hln => (hg ln hln).2.1)
      (fun ln hln => (hg ln hln).2.2.1)).2
  have hJnoNl : '\n' ∉ joinSp (cellLines cell) := by
    intro h
    rcases mem_joinSp h with h1 | ⟨p, hp, hcp⟩
    · exact absurd h1 (by decide)
    · exact ((cellLines_good hb hp).2.2.2 '\n' hcp).1 rfl
  have hBodyJ : cellBody (joinSp (cellLines cell)) = joinSp (cellLines cell) := by
    unfold cellBody
    rw [hJfix, replaceAll_eq_self (joinSp_lines_no_bullet hb),
      pyStrip_eq_self hJstr]
  have hLinesJ : cellLines (joinSp (cellLines cell)) = [joinSp (cellLines cell)] := by
    rw [show cellLines (joinSp (cellLines cell))
          = ((splitOnNL (cellBody (joinSp (cellLines cell)))).map pyStrip).filter
              (fun l => decide (l ≠ [])) from rfl]
    rw [hBodyJ, splitOnNL_no_nl hJnoNl, List.map_singleton,
      pyStrip_eq_self hJstr, List.filter_cons_of_pos (by simpa using hJne)]
    rfl
  unfold cellToItems
  rw [if_neg (by rw [hJfix]; exact hJne), if_pos (by rw [hLinesJ]; simp)]
  rw [hBodyJ]

/-- Claim C3 (corrected): the Cell Normalizer returns the empty list exactly
when the whitespace-normalization of the whole cell is empty.  A cell
consisting only of bullet glyphs normalizes to a non-empty string, so for it
the Cell Normalizer does not return the empty list (it returns the singleton
list containing the empty string; see the counterexample). -/
theorem claim_C3 (cell : Str) : cellToItems cell = [] ↔ norm cell = [] :=
  cellToItems_eq_nil_iff cell

/-- Claim C3 counterexample: the cell `"•"` consists only of a bullet glyph,
and zero non-blank lines remain after normalization and marker stripping,
yet the Cell Normalizer returns the singleton list containing the empty
string, not the empty list. -/
theorem claim_C3_cex :
    cellToItems ("•".toList) = [[]] ∧ cellToItems ("•".toList) ≠ [] := by
  refine ⟨by decide, by decide⟩

/-- Claim C4 (corrected): for every cell with two or more non-blank lines,
the Cell Normalizer returns exactly one dish name, the non-blank lines
joined by single spaces (never splitting the cell, also when a "/" is
present); and re-applying the Cell Normalizer to that output leaves it
unchanged provided the cell contains no bullet glyph.  (With a bullet,
adjacent spaces can survive inside the joined name and re-normalization
collapses them; see the counterexample.) -/
theorem claim_C4 (cell : Str) (h2 : 2 ≤ (cellLines cell).length) :
    cellToItems cell = [joinSp (cellLines cell)] ∧
      ('•' ∉ cell →
        cellToItems (joinSp (cellLines cell)) = [joinSp (cellLines cell)]) :=
  ⟨cellToItems_eq_join h2, fun hb => cellToItems_join_idem hb h2⟩

/-- Claim C4 witness: the two-line cell `"Kuru\nFasulye"` yields exactly one
dish name, and re-normalizing that output is the identity. -/
theorem claim_C4_witness :
    cellToItems ("Kuru\nFasulye".toList)
        = [joinSp (cellLines ("Kuru\nFasulye".toList))] ∧
      cellToItems (joinSp (cellLines ("Kuru\nFasulye".toList)))
        = [joinSp (cellLines ("Kuru\nFasulye".toList))] := by
  have h := claim_C4 ("Kuru\nFasulye".toList) (by decide)
  exact ⟨h.1, h.2 (by decide)⟩

/-- Claim C4 counterexample: the cell `"a••b\nc"` has two non-blank lines;
the Cell Normalizer yields `["a  b c"]` (a double space survives where the
bullets were blanked), and re-applying the Cell Normalizer yields
`["a b c"]`, so idempotence fails as stated. -/
theorem claim_C4_cex :
    2 ≤ (cellLines ("a••b\nc".toList)).length ∧
      cellToItems ("a••b\nc".toList) = [("a  b c".toList)] ∧
      cellToItems ("a  b c".toList) ≠ [("a  b c".toList)] := by
  refine ⟨by decide, by decide, by decide⟩

/-- Claim C2 (corrected): a non-empty table with fewer than 5 columns and no
day-label hits in its first 6 rows scores exactly `min(row count, 30)`; and
it always scores strictly below a table with at least 5 columns and at least
3 label hits, provided the latter also has at least 6 rows.  (Without that
extra condition the claim fails: a 30-row narrow table can outscore a short
wide labelled one; see the counterexample.) -/
theorem claim_C2 (T U : Table) (hT : T ≠ []) (hc : maxCols T < 5)
    (hh : hitScore T = 0) (hU1 : 5 ≤ maxCols U) (hU2 : 3 ≤ hitScore U)
    (hU3 : 6 ≤ U.length) :
    scoreTable T = ((min T.length 30 : Nat) : Int) ∧
      scoreTable T < scoreTable U := by
  have hTs : scoreTable T = ((min T.length 30 : Nat) : Int) := by
    unfold scoreTable
    rw [if_neg hT, if_neg (by omega), hh]
    simp
  have hUne : U ≠ [] := by
    intro h
    rw [h] at hU3
    simp at hU3
  have hUs : scoreTable U
      = 10 + 5 * (hitScore U : Int) + ((min U.length 30 : Nat) : Int) := by
    unfold scoreTable
    rw [if_neg hUne, if_pos hU1]
  refine ⟨hTs, ?_⟩
  rw [hTs, hUs]
  have h1 : min T.length 30 ≤ 30 := Nat.min_le_right _ _
  have h2 : 6 ≤ min U.length 30 := le_min hU3 (by norm_num)
  omega

/-- Claim C2 witness: a 2-row 1-column table against a 6-row 5-column table
with 5 label hits. -/
theorem claim_C2_witness :
    scoreTable exTc2 = ((min exTc2.length 30 : Nat) : Int) ∧
      scoreTable exTc2 < scoreTable exUc2 :=
  claim_C2 exTc2 exUc2 (by decide) (by decide) (by decide) (by decide)
    (by decide) (by decide)

/-- Claim C2 counterexample: a 30-row 1-column table with no label hits
scores 30, while a 1-row 5-column table with exactly 3 label hits scores
only 26, so the claimed strict inequality fails. -/
theorem claim_C2_cex :
    exT30 ≠ [] ∧ maxCols exT30 < 5 ∧ hitScore exT30 = 0 ∧
      5 ≤ maxCols exU1 ∧ 3 ≤ hitScore exU1 ∧
      scoreTable exT30 = 30 ∧ scoreTable exU1 = 26 ∧
      ¬ scoreTable exT30 < scoreTable exU1 := by
  refine ⟨by decide, by decide, by decide, by decide, by decide, by decide,
    by decide, by decide⟩

theorem findHdrAux_cons_eq (r : List Str) (rest : Table) (f k : Nat) :
    findHdrAux (r :: rest) (f + 1) k
      = if 3 ≤ rowHitsHdr r then some k else findHdrAux rest f (k + 1) := rfl

theorem findHdrAux_none {rows : Table} :
    ∀ fuel k, findHdrAux rows fuel k = none →
      ∀ j < min fuel rows.length, rowHitsHdr (rows.getD j []) < 3 := by
  induction rows with
  | nil =>
    intro fuel k h j hj
    simp at hj
  | cons r rest ih =>
    intro fuel k h j hj
    cases fuel with
    | zero => simp at hj
    | succ f =>
      rw [findHdrAux_cons_eq] at h
      by_cases hr : 3 ≤ rowHitsHdr r
      · rw [if_pos hr] at h; simp at h
      · rw [if_neg hr] at h
        cases j with
        | zero =>
          rw [List.getD_cons_zero]
          omega
        | succ j2 =>
          rw [List.getD_cons_succ]
          refine ih f (k + 1) h j2 ?_
          rw [List.length_cons, Nat.succ_min_succ] at hj
          omega

theorem findHdrAux_some {rows : Table} :
    ∀ fuel k i, findHdrAux rows fuel k = some i →
      k ≤ i ∧ i - k < min fuel rows.length ∧
        3 ≤ rowHitsHdr (rows.getD (i - k) []) ∧
        ∀ j < i - k, rowHitsHdr (rows.getD j []) < 3 := by
  induction rows with
  | nil =>
    intro fuel k i h
    cases fuel with
    | zero => simp [findHdrAux] at h
    | succ f => simp [findHdrAux] at h
  | cons r rest ih =>
    intro fuel k i h
    cases fuel with
    | zero => simp [findHdrAux] at h
    | succ f =>
      rw [findHdrAux_cons_eq] at h
      by_cases hr : 3 ≤ rowHitsHdr r
      · rw [if_pos hr] at h
        have hk : k = i := Option.some.inj h
        subst hk
        refine ⟨le_refl _, ?_, ?_, ?_⟩
        · rw [Nat.sub_self, List.length_cons, Nat.succ_min_succ]; omega
        · rw [Nat.sub_self, List.getD_cons_zero]; exact hr
        · intro j hj; omega
      · rw [if_neg hr] at h
        obtain ⟨h1, h2, h3, h4⟩ := ih f (k + 1) i h
        have hik : i - k = (i - (k + 1)) + 1 := by omega
        refine ⟨by omega, ?_, ?_, ?_⟩
        · rw [List.length_cons, Nat.succ_min_succ]; omega
        · rw [hik, List.getD_cons_succ]; exact h3
        · intro j hj
          cases j with
          | zero => rw [List.getD_cons_zero]; omega
          | succ j2 =>
            rw [List.getD_cons_succ]
            exact h4 j2 (by omega)

/-- Claim C6 (confirmed): the header row chosen for a selected table is the
first (lowest-index) row among the first 10 rows in which at least 3 day
labels are found (case-insensitively, after whitespace normalization, as
computed by `rowHitsHdr`); if no such row exists among the first 10 rows,
row 0 is used. -/
theorem claim_C6 (t : Table) :
    (headerRowIdx t < min 10 t.length ∧
        3 ≤ rowHitsHdr (t.getD (headerRowIdx t) []) ∧
        ∀ j < headerRowIdx t, rowHitsHdr (t.getD j []) < 3)
    ∨ (headerRowIdx t = 0 ∧
        ∀ j < min 10 t.length, rowHitsHdr (t.getD j []) < 3) := by
  unfold headerRowIdx
  cases hf : findHdrAux t 10 0 with
  | none =>
    right
    exact ⟨rfl, findHdrAux_none 10 0 hf⟩
  | some i =>
    left
    obtain ⟨h1, h2, h3, h4⟩ := findHdrAux_some 10 0 i hf
    rw [Nat.sub_zero] at h2 h3 h4
    exact ⟨h2, h3, h4⟩

/-- Claim C5 (confirmed): if label matching over the header row resolves
fewer than all 5 weekdays, the mapping is discarded entirely and replaced by
the positional mapping column 0 → Monday, …, 4 → Friday (whose keys are
exactly the five weekdays, in order); the final mapping is always either the
positional one or the complete label-derived one — partial label matches are
never mixed with positional assignments. -/
theorem claim_C5 (hdr : List Str) :
    ((buildColIdx hdr).length < 5 →
        colIdxFinal hdr = posMap ∧ (colIdxFinal hdr).map Prod.fst = DAYS_EN)
    ∧ (colIdxFinal hdr = posMap ∨
        (colIdxFinal hdr = buildColIdx hdr ∧ 5 ≤ (buildColIdx hdr).length)) := by
  unfold colIdxFinal
  by_cases h : (buildColIdx hdr).length < 5
  · rw [if_pos h]
    exact ⟨fun _ => ⟨rfl, by decide⟩, Or.inl rfl⟩
  · rw [if_neg h]
    exact ⟨fun hh => absurd hh h, Or.inr ⟨rfl, by omega⟩⟩

/-- Claim C5 witness: a header row with only 4 recognizable weekday cells is
replaced by the positional mapping, which has all five weekday keys. -/
theorem claim_C5_witness :
    (buildColIdx hdr4).length < 5 ∧ colIdxFinal hdr4 = posMap ∧
      (colIdxFinal hdr4).map Prod.fst = DAYS_EN := by
  have h := (claim_C5 hdr4).1 (by decide)
  exact ⟨by decide, h.1, h.2⟩

theorem foldl_preserve_mem {α β : Type} (P : β → Prop) (f : β → α → β) :
    ∀ (l : List α), (∀ b a, a ∈ l → P b → P (f b a)) →
      ∀ b, P b → P (l.foldl f b) := by
  intro l
  induction l with
  | nil => intro _ b hb; exact hb
  | cons x xs ih =>
    intro hf b hb
    exact ih (fun b a ha hb => hf b a (List.mem_cons_of_mem _ ha) hb) _
      (hf b x (List.mem_cons_self _ _) hb)

theorem mem_appendIfNew {days : List (Str × List Str)} {day dish : Str}
    {q : Str × List Str} (hq : q ∈ appendIfNew days day dish) :
    ∃ p ∈ days, q = p ∨
      (q.1 = p.1 ∧ q.2 = p.2 ++ [dish] ∧ dish ∉ p.2) := by
  unfold appendIfNew at hq
  rcases List.mem_map.1 hq with ⟨p, hp, heq⟩
  refine ⟨p, hp, ?_⟩
  by_cases h1 : p.1 = day
  · rw [if_pos h1] at heq
    by_cases h2 : dish ∈ p.2
    · left
      rw [← heq, if_pos h2, Prod.mk.eta]
    · right
      rw [← heq, if_neg h2]
      exact ⟨rfl, rfl, h2⟩
  · left
    rw [if_neg h1] at heq
    exact heq.symm

theorem appendIfNew_fst (days : List (Str × List Str)) (day dish : Str) :
    (appendIfNew days day dish).map Prod.fst = days.map Prod.fst := by
  unfold appendIfNew
  rw [List.map_map]
  apply List.map_congr_left
  intro p _
  by_cases h1 : p.1 = day
  · simp [h1]
  · simp [h1]

theorem daysInv_appendIfNew {days : List (Str × List Str)} {day dish : Str}
    (h : DaysInv days) (hd1 : dish ≠ []) (hd2 : norm dish = dish) :
    DaysInv (appendIfNew days day dish) := by
  constructor
  · rw [appendIfNew_fst]; exact h.1
  · intro q hq
    rcases mem_appendIfNew hq with ⟨p, hp, hcase⟩
    obtain ⟨hnd, helem⟩ := h.2 p hp
    rcases hcase with rfl | ⟨_, h2, h3⟩
    · exact ⟨hnd, helem⟩
    · rw [h2]
      constructor
      · rw [List.nodup_append]
        exact ⟨hnd, List.nodup_singleton _, List.disjoint_singleton.2 h3⟩
      · intro x hx
        rcases List.mem_append.1 hx with hx1 | hx1
        · exact helem x hx1
        · rw [List.mem_singleton.1 hx1]
          exact ⟨hd1, hd2⟩

theorem daysInv_addDishes {days : List (Str × List Str)} {day cell : Str}
    (h : DaysInv days) : DaysInv (addDishes days day cell) := by
  unfold addDishes
  apply foldl_preserve_mem DaysInv _ (cellToItems cell) _ days h
  intro ds item hitem hds
  by_cases h1 : norm item = []
  · rw [if_pos h1]; exact hds
  · rw [if_neg h1]
    by_cases h2 : dishBlocked (upperStr (norm item)) = true
    · rw [if_pos h2]; exact hds
    · rw [if_neg h2]
      obtain ⟨hnl, hcr⟩ := cellToItems_no_nl_cr hitem
      exact daysInv_appendIfNew hds h1 (norm_norm hnl hcr)

theorem daysInv_processRow {cmap : List (Str × Nat)}
    {days : List (Str × List Str)} {row : List Str} (h : DaysInv days) :
    DaysInv (processRow cmap days row) := by
  unfold processRow
  by_cases hc : (decide (row ≠ []) &&
      decide (1 < (row.filter (fun c => decide (norm c ≠ []))).length)) = true
  · rw [if_pos hc]
    apply foldl_preserve_mem DaysInv _ DAYS_EN _ days h
    intro ds day _ hds
    cases dictGet cmap day with
    | none => exact hds
    | some j =>
      dsimp only
      split
      · exact daysInv_addDishes hds
      · exact hds
  · rw [if_neg hc]; exact h

theorem daysInv_days0 : DaysInv days0 := by
  constructor
  · decide
  · intro p hp
    have : p.2 = [] := by
      unfold days0 at hp
      rcases List.mem_map.1 hp with ⟨d, _, heq⟩
      rw [← heq]
    rw [this]
    exact ⟨List.nodup_nil, fun x hx => absurd hx (List.not_mem_nil x)⟩

theorem daysInv_dropDayTokens {days : List (Str × List Str)}
    (h : DaysInv days) : DaysInv (dropDayTokens days) := by
  constructor
  · unfold dropDayTokens
    rw [List.map_map, ← h.1]
    apply List.map_congr_left
    intro p _
    rfl
  · intro q hq
    rcases List.mem_map.1 hq with ⟨p, hp, heq⟩
    obtain ⟨hnd, helem⟩ := h.2 p hp
    rw [← heq]
    exact ⟨hnd.filter _, fun x hx => helem x (List.mem_filter.1 hx).1⟩

theorem dropDayTokens_no_daykey {days : List (Str × List Str)}
    {q : Str × List Str} {x : Str} (hq : q ∈ dropDayTokens days)
    (hx : x ∈ q.2) : upperStr (norm x) ∉ DAY_KEYS := by
  unfold dropDayTokens at hq
  rcases List.mem_map.1 hq with ⟨p, hp, heq⟩
  rw [← heq] at hx
  have h2 := (List.mem_filter.1 hx).2
  simpa using h2

theorem assembleDays_inv (t : Table) :
    DaysInv (assembleDays t) ∧
      ∀ q ∈ assembleDays t, ∀ x ∈ q.2, upperStr (norm x) ∉ DAY_KEYS := by
  unfold assembleDays
  constructor
  · apply daysInv_dropDayTokens
    apply foldl_preserve_mem DaysInv _ _ _ days0 daysInv_days0
    intro ds row _ hds
    exact daysInv_processRow hds
  · intro q hq x hx
    exact dropDayTokens_no_daykey hq hx

theorem extract_inv (doc : PdfDoc) :
    DaysInv (extract_menu_from_pdf doc).1 ∧
      ∀ q ∈ (extract_menu_from_pdf doc).1, ∀ x ∈ q.2,
        upperStr (norm x) ∉ DAY_KEYS := by
  have hd0 : DaysInv days0 ∧
      ∀ q ∈ days0, ∀ x ∈ q.2, upperStr (norm x) ∉ DAY_KEYS := by
    refine ⟨daysInv_days0, ?_⟩
    intro q hq x hx
    rcases List.mem_map.1 hq with ⟨d, _, heq⟩
    rw [← heq] at hx
    exact absurd hx (List.not_mem_nil x)
  unfold extract_menu_from_pdf
  cases doc.pages with
  | nil => exact hd0
  | cons page rest =>
    dsimp only
    cases bestTableFinal page with
    | none => exact hd0
    | some t =>
      dsimp only
      split
      · exact hd0
      · exact assembleDays_inv t

/-- Claim C1 (corrected): a dish name is appended to a weekday's list only
if no dish already in that list equals it exactly after whitespace
normalization — the duplicate check is case-sensitive, not
case-and-whitespace-insensitive: every weekday list of every run is free of
exact duplicates (first-seen order preserved by append), and a Monday column
yielding the raw dishes `["Soup", "soup ", "Soup"]` produces the list
`["Soup", "soup"]`, not `["Soup"]`. -/
theorem claim_C1 (doc : PdfDoc) :
    (∀ q ∈ (extract_menu_from_pdf doc).1, q.2.Nodup) ∧
      (extract_menu_from_pdf docC1).1.headD ([], [])
        = ("Monday".toList, ["Soup".toList, "soup".toList]) := by
  constructor
  · intro q hq
    exact ((extract_inv doc).1.2 q hq).1
  · decide

/-- Claim C1 witness: the Monday list produced by `docC1` is duplicate-free
(it keeps both "Soup" and "soup"). -/
theorem claim_C1_witness :
    (("Monday".toList, ["Soup".toList, "soup".toList]) : Str × List Str).2.Nodup :=
  (claim_C1 docC1).1 ("Monday".toList, ["Soup".toList, "soup".toList])
    (by decide)

/-- Claim C1 counterexample: for the document whose Monday column carries
the raw dishes `["Soup", "soup ", "Soup"]`, the assembled Monday list is
`["Soup", "soup"]` and not `["Soup"]` — the case-insensitive duplicate
collapse asserted by the claim does not happen. -/
theorem claim_C1_cex :
    (extract_menu_from_pdf docC1).1.headD ([], [])
        = ("Monday".toList, ["Soup".toList, "soup".toList]) ∧
      (extract_menu_from_pdf docC1).1.headD ([], [])
        ≠ ("Monday".toList, ["Soup".toList]) := by
  refine ⟨by decide, by decide⟩

/-- Claim C7 (confirmed): for a document with zero pages the extraction
returns normally with all five weekday lists empty and no date range; and
for any document whose first page yields no usable table from any
configuration nor from the generic fallback (the final `best_table` is
falsy), the extraction returns normally with all five weekday lists empty
(the date range may or may not be present). -/
theorem claim_C7 (doc : PdfDoc) :
    (doc.pages = [] → extract_menu_from_pdf doc = (days0, none))
    ∧ (∀ page rest, doc.pages = page :: rest →
        isFalsy (bestTableFinal page) = true →
        (extract_menu_from_pdf doc).1 = days0) := by
  constructor
  · intro h
    unfold extract_menu_from_pdf
    rw [h]
  · intro page rest h hfal
    unfold extract_menu_from_pdf
    rw [h]
    dsimp only
    cases hb : bestTableFinal page with
    | none => rfl
    | some t =>
      rw [hb] at hfal
      have ht : t = [] := by simpa [isFalsy] using hfal
      dsimp only
      rw [if_pos ht]

/-- Claim C7 witness: the zero-page document and a one-page document with
no usable table both yield the all-empty day record. -/
theorem claim_C7_witness :
    extract_menu_from_pdf docNoPages = (days0, none) ∧
      (extract_menu_from_pdf docNoTable).1 = days0 := by
  constructor
  · exact (claim_C7 docNoPages).1 rfl
  · exact (claim_C7 docNoTable).2 pageNoTable [] rfl (by decide)

/-- Claim C9 (confirmed): for every input document, the day mapping of the
returned record has exactly the five keys Monday, Tuesday, Wednesday,
Thursday, Friday, in this order. -/
theorem claim_C9 (doc : PdfDoc) :
    ((extract_menu_from_pdf doc).1).map Prod.fst = DAYS_EN :=
  (extract_inv doc).1.1

/-- Claim C10 (confirmed): every string in every weekday list of the
returned record is non-empty, equals its own whitespace normalization, and
its normalized upper-cased form is not a recognized weekday label. -/
theorem claim_C10 (doc : PdfDoc) (q : Str × List Str) (x : Str)
    (hq : q ∈ (extract_menu_from_pdf doc).1) (hx : x ∈ q.2) :
    x ≠ [] ∧ norm x = x ∧ upperStr (norm x) ∉ DAY_KEYS := by
  obtain ⟨hinv, hkey⟩ := extract_inv doc
  obtain ⟨_, helem⟩ := hinv.2 q hq
  exact ⟨(helem x hx).1, (helem x hx).2, hkey q hq x hx⟩

/-- Claim C10 witness: the dish "Çorba" extracted for Monday from `docC10`
is non-empty, normalization-stable, and not a weekday label. -/
theorem claim_C10_witness :
    "Çorba".toList ≠ [] ∧ norm ("Çorba".toList) = "Çorba".toList ∧
      upperStr (norm ("Çorba".toList)) ∉ DAY_KEYS :=
  claim_C10 docC10 ("Monday".toList, ["Çorba".toList]) ("Çorba".toList)
    (by decide) (by decide)

theorem lexStep_iff {α : Type} (le : α → α → Bool) (p q : Nat × α) :
    lexStep le p q = true ↔ (p.1 < q.1 ∨ (p.1 = q.1 ∧ le p.2 q.2 = true)) := by
  unfold lexStep
  simp [Bool.or_eq_true, Bool.and_eq_true, decide_eq_true_eq]

theorem lexStep_refl {α : Type} {le : α → α → Bool}
    (hle : ∀ x, le x x = true) :
    ∀ p : Nat × α, lexStep le p p = true := by
  intro p
  rw [lexStep_iff]
  exact Or.inr ⟨rfl, hle p.2⟩

theorem lexStep_total {α : Type} {le : α → α → Bool}
    (hle : ∀ x y, le x y = true ∨ le y x = true) :
    ∀ p q : Nat × α, lexStep le p q = true ∨ lexStep le q p = true := by
  intro p q
  rw [lexStep_iff, lexStep_iff]
  rcases Nat.lt_trichotomy p.1 q.1 with h | h | h
  · exact Or.inl (Or.inl h)
  · rcases hle p.2 q.2 with h2 | h2
    · exact Or.inl (Or.inr ⟨h, h2⟩)
    · exact Or.inr (Or.inr ⟨h.symm, h2⟩)
  · exact Or.inr (Or.inl h)

theorem lexStep_trans {α : Type} {le : α → α → Bool}
    (hle : ∀ x y z, le x y = true → le y z = true → le x z = true) :
    ∀ p q r : Nat × α, lexStep le p q = true → lexStep le q r = true →
      lexStep le p r = true := by
  intro p q r h1 h2
  rw [lexStep_iff] at h1 h2 ⊢
  rcases h1 with h1 | ⟨h1e, h1le⟩
  · rcases h2 with h2 | ⟨h2e, _⟩
    · exact Or.inl (h1.trans h2)
    · exact Or.inl (h2e ▸ h1)
  · rcases h2 with h2 | ⟨h2e, h2le⟩
    · exact Or.inl (h1e ▸ h2)
    · exact Or.inr ⟨h1e.trans h2e, hle _ _ _ h1le h2le⟩

theorem natLeB_refl : ∀ x : Nat, natLeB x x = true := by
  intro x
  simp [natLeB]

theorem natLeB_total : ∀ x y : Nat, natLeB x y = true ∨ natLeB y x = true := by
  intro x y
  simp only [natLeB, decide_eq_true_eq]
  omega

theorem natLeB_trans : ∀ x y z : Nat,
    natLeB x y = true → natLeB y z = true → natLeB x z = true := by
  intro x y z h1 h2
  simp only [natLeB, decide_eq_true_eq] at h1 h2 ⊢
  omega

theorem key6Le_refl : ∀ k, key6Le k k = true :=
  lexStep_refl (lexStep_refl (lexStep_refl (lexStep_refl
    (lexStep_refl natLeB_refl))))

theorem key6Le_total : ∀ p q, key6Le p q = true ∨ key6Le q p = true :=
  lexStep_total (lexStep_total (lexStep_total (lexStep_total
    (lexStep_total natLeB_total))))

theorem key6Le_trans : ∀ p q r,
    key6Le p q = true → key6Le q r = true → key6Le p r = true :=
  lexStep_trans (lexStep_trans (lexStep_trans (lexStep_trans
    (lexStep_trans natLeB_trans))))

theorem insB_head? {x : Str} (l : List Str) :
    (insB x l).head? = some x ∨ (insB x l).head? = l.head? := by
  cases l with
  | nil => left; rfl
  | cons z zs =>
    unfold insB
    split
    · right; rfl
    · left; rfl

theorem insB_sorted {x : Str} : ∀ {l : List Str},
    List.Chain' (fun a b => key6Le (urlKey a) (urlKey b) = true) l →
    List.Chain' (fun a b => key6Le (urlKey a) (urlKey b) = true) (insB x l) := by
  intro l
  induction l with
  | nil => intro _; exact List.chain'_singleton x
  | cons y ys ih =>
    intro hch
    obtain ⟨hhead, htail⟩ := List.chain'_cons'.1 hch
    unfold insB
    split
    next hle =>
      rw [List.chain'_cons']
      refine ⟨?_, ih htail⟩
      intro h hs
      rcases insB_head? ys with hcase | hcase
      · rw [hcase] at hs
        have hhx : x = h := by simpa using hs
        rw [← hhx]
        exact hle
      · rw [hcase] at hs
        exact hhead h hs
    next hle =>
      rw [List.chain'_cons]
      refine ⟨?_, hch⟩
      rcases key6Le_total (urlKey y) (urlKey x) with h1 | h1
      · exact absurd h1 hle
      · exact h1

theorem sorted_last_max : ∀ {l : List Str},
    List.Chain' (fun a b => key6Le (urlKey a) (urlKey b) = true) l →
    ∀ u ∈ l, key6Le (urlKey u) (urlKey (l.getLastD [])) = true := by
  intro l
  induction l with
  | nil => intro _ u hu; simp at hu
  | cons y ys ih =>
    intro hch u hu
    cases ys with
    | nil =>
      have hu' : u = y := by simpa using hu
      rw [hu']
      exact key6Le_refl _
    | cons z zs =>
      rw [List.getLastD_cons, getLastD_ne_nil_irrel (by simp) y []]
      have hR : key6Le (urlKey y) (urlKey z) = true := (List.chain'_cons.1 hch).1
      have htail := (List.chain'_cons.1 hch).2
      rcases List.mem_cons.1 hu with h1 | h1
      · have hzlast := ih htail z (List.mem_cons_self _ _)
        rw [h1]
        exact key6Le_trans _ _ _ hR hzlast
      · exact ih htail u h1

theorem mem_insB_intro {x u : Str} : ∀ (l : List Str),
    (u = x ∨ u ∈ l) → u ∈ insB x l := by
  intro l
  induction l with
  | nil =>
    intro h
    rcases h with h1 | h1
    · rw [h1]; exact List.mem_cons_self _ _
    · simp at h1
  | cons y ys ih =>
    intro h
    unfold insB
    split
    · rcases h with h1 | h1
      · exact List.mem_cons_of_mem _ (ih (Or.inl h1))
      · rcases List.mem_cons.1 h1 with h2 | h2
        · rw [h2]; exact List.mem_cons_self _ _
        · exact List.mem_cons_of_mem _ (ih (Or.inr h2))
    · rcases h with h1 | h1
      · rw [h1]; exact List.mem_cons_self _ _
      · exact List.mem_cons_of_mem _ h1

theorem mem_foldl_insB {u : Str} : ∀ (l acc : List Str),
    (u ∈ acc ∨ u ∈ l) → u ∈ l.foldl (fun acc x => insB x acc) acc := by
  intro l
  induction l with
  | nil =>
    intro acc h
    rcases h with h | h
    · exact h
    · simp at h
  | cons x xs ih =>
    intro acc h
    rw [List.foldl_cons]
    apply ih
    rcases h with h | h
    · exact Or.inl (mem_insB_intro acc (Or.inr h))
    · rcases List.mem_cons.1 h with h1 | h1
      · exact Or.inl (mem_insB_intro acc (Or.inl h1))
      · exact Or.inr h1

theorem mem_foldl_dedup {u : Str} : ∀ (l acc : List Str),
    (u ∈ acc ∨ u ∈ l) →
      u ∈ l.foldl (fun acc x => if x ∈ acc then acc else acc ++ [x]) acc := by
  intro l
  induction l with
  | nil =>
    intro acc h
    rcases h with h | h
    · exact h
    · simp at h
  | cons x xs ih =>
    intro acc h
    rw [List.foldl_cons]
    apply ih
    by_cases hx : x ∈ acc
    · rw [if_pos hx]
      rcases h with h | h
      · exact Or.inl h
      · rcases List.mem_cons.1 h with h1 | h1
        · exact Or.inl (h1 ▸ hx)
        · exact Or.inr h1
    · rw [if_neg hx]
      rcases h with h | h
      · exact Or.inl (List.mem_append.2 (Or.inl h))
      · rcases List.mem_cons.1 h with h1 | h1
        · exact Or.inl (List.mem_append.2 (Or.inr (by simp [h1])))
        · exact Or.inr h1

theorem mem_dedupL {u : Str} {l : List Str} (h : u ∈ l) : u ∈ dedupL l :=
  mem_foldl_dedup l [] (Or.inr h)

theorem mem_sortUrls {u : Str} {l : List Str} (h : u ∈ l) : u ∈ sortUrls l :=
  mem_foldl_insB l [] (Or.inr h)

theorem sortUrls_sorted (l : List Str) :
    List.Chain' (fun a b => key6Le (urlKey a) (urlKey b) = true) (sortUrls l) := by
  unfold sortUrls
  apply foldl_preserve_mem
    (List.Chain' (fun a b => key6Le (urlKey a) (urlKey b) = true)) _ l _ []
    List.chain'_nil
  intro acc u _ hacc
  exact insB_sorted hacc

/-- Claim C8 (confirmed): for every non-empty list of candidate links,
`pick_best` returns a link whose filename-embedded date-range key (the
6-tuple end-year, end-month, end-day, start-year, start-month, start-day,
with 2-digit years shifted into the 2000s) is maximal among all candidates;
in particular `"8_1_24-12_1_24"` is selected over `"1_1_24-5_1_24"`, and
2-digit and 4-digit spellings of the same dates produce equal keys. -/
theorem claim_C8 (urls : List Str) (_hne : urls ≠ []) :
    (∀ u ∈ urls, key6Le (urlKey u) (urlKey (pick_best urls)) = true) ∧
      pick_best ["1_1_24-5_1_24".toList, "8_1_24-12_1_24".toList]
        = "8_1_24-12_1_24".toList ∧
      urlKey ("1_1_24-5_1_24".toList) = urlKey ("1_1_2024-5_1_2024".toList) := by
  refine ⟨?_, by decide, by decide⟩
  intro u hu
  exact sorted_last_max (sortUrls_sorted (dedupL urls)) u
    (mem_sortUrls (mem_dedupL hu))

/-- Claim C8 witness: the selected link's key dominates the other
candidate's key in the two-link example. -/
theorem claim_C8_witness :
    key6Le (urlKey ("1_1_24-5_1_24".toList))
      (urlKey (pick_best ["1_1_24-5_1_24".toList, "8_1_24-12_1_24".toList]))
      = true :=
  (claim_C8 ["1_1_24-5_1_24".toList, "8_1_24-12_1_24".toList] (by decide)).1
    ("1_1_24-5_1_24".toList) (by decide)

end GreenPlate
